import Mathlib

/-!
Verification development for the CP-SAT presolve context
(`ortools/sat/presolve_context.cc`).

The C++ source is shallowly embedded below: each member function of
`PresolveContext` that the properties mention becomes a Lean function on an
explicit `PresolveContext` record.  Machine integers (`int64`) are modelled by
unbounded `Int` (the source relies on no overflow for the quantities involved;
saturating helpers are not exercised by the properties below), C++ `double`
fields (`objective_offset`, `objective_scaling_factor`) are modelled by exact
rationals `Rat`, and hash maps / sets by association lists and `Finset`.
C++ integer division and modulo (which truncate towards zero) are modelled by
`Int.tdiv` / `Int.tmod`.

Helper classes that the translation unit uses but whose implementation lives
elsewhere in the repository (`Domain` from `sorted_interval_list`, the
`AffineRelation` union-find, the reference helpers of `cp_model_utils`, proto
messages) are modelled from the specification; each such definition carries a
doc comment starting with `Modelled from the spec:`.
-/

/-- Modelled from the spec: references use the two's-complement style
convention of `cp_model_utils`, `negated(r) = -r - 1`; `negated` is an
involution and `positive(r) = max(r, negated(r))`. -/
def NegatedRef (r : Int) : Int := -r - 1

/-- Modelled from the spec: a reference is positive iff it is `≥ 0`. -/
def RefIsPositive (r : Int) : Bool := r ≥ 0

/-- Modelled from the spec: the positive (variable-index) form of a
reference. -/
def PositiveRef (r : Int) : Int := if RefIsPositive r then r else NegatedRef r

/-- The variable index denoted by a reference, as a natural number. -/
def refVar (r : Int) : Nat := (PositiveRef r).toNat

/-- Modelled from the spec: `kint64min`. -/
def kint64min : Int := -9223372036854775808

/-- Modelled from the spec: `kint64max`. -/
def kint64max : Int := 9223372036854775807

/-!  ### The `Domain` class

Modelled from the spec: a domain is an ordered union of disjoint closed
integer intervals.  All constructors and operations below normalize their
result (intervals sorted, non-empty, disjoint and non-adjacent), mirroring
`Domain` of `sorted_interval_list`.
-/

/-- Insertion step for sorting interval lists by lower bound. -/
def insIv (p : Int × Int) : List (Int × Int) → List (Int × Int)
  | [] => [p]
  | q :: rest => if p.1 ≤ q.1 then p :: q :: rest else q :: insIv p rest

/-- Insertion sort of interval lists by lower bound. -/
def sortIvs : List (Int × Int) → List (Int × Int)
  | [] => []
  | p :: rest => insIv p (sortIvs rest)

/-- Fuse a sorted run of non-empty intervals: merge overlapping or adjacent
intervals. -/
def fuseIvs : (Int × Int) → List (Int × Int) → List (Int × Int)
  | cur, [] => [cur]
  | cur, q :: rest =>
    if q.1 ≤ cur.2 + 1 then fuseIvs (cur.1, max cur.2 q.2) rest
    else cur :: fuseIvs q rest

/-- Normalize an arbitrary interval list: drop empty intervals, sort, and
merge overlapping/adjacent intervals. -/
def normIvs (l : List (Int × Int)) : List (Int × Int) :=
  match sortIvs (l.filter fun p => decide (p.1 ≤ p.2)) with
  | [] => []
  | p :: rest => fuseIvs p rest

/-- Modelled from the spec: the `Domain` class, an ordered union of disjoint
closed intervals. -/
structure Domain where
  intervals : List (Int × Int)
deriving DecidableEq

/-- Modelled from the spec: `Domain::IsEmpty`. -/
def Domain.IsEmpty (d : Domain) : Bool := d.intervals.isEmpty

/-- Modelled from the spec: `Domain::Contains`. -/
def Domain.Contains (d : Domain) (v : Int) : Bool :=
  d.intervals.any fun p => decide (p.1 ≤ v) && decide (v ≤ p.2)

/-- Modelled from the spec: `Domain::Min` (meaningful on non-empty domains;
defaults to `0` on the empty domain, where the C++ has a precondition). -/
def Domain.Min (d : Domain) : Int :=
  match d.intervals with
  | [] => 0
  | p :: _ => p.1

/-- Modelled from the spec: `Domain::Max` (same convention as `Min`). -/
def Domain.Max (d : Domain) : Int :=
  match d.intervals.getLast? with
  | none => 0
  | some p => p.2

/-- Modelled from the spec: `Domain::IsFixed` (domain is a single value). -/
def Domain.IsFixed (d : Domain) : Bool :=
  match d.intervals with
  | [(a, b)] => a == b
  | _ => false

/-- Modelled from the spec: the `Domain(value)` constructor. -/
def Domain.single (v : Int) : Domain := ⟨[(v, v)]⟩

/-- Modelled from the spec: the `Domain(left, right)` constructor. -/
def Domain.interval (lb ub : Int) : Domain :=
  ⟨if lb ≤ ub then [(lb, ub)] else []⟩

/-- Modelled from the spec: `Domain::AllValues()`, the full int64 range. -/
def Domain.AllValues : Domain := ⟨[(kint64min, kint64max)]⟩

/-- Modelled from the spec: `Domain::Negation`. -/
def Domain.Negation (d : Domain) : Domain :=
  ⟨(d.intervals.map fun p => (-p.2, -p.1)).reverse⟩

/-- Modelled from the spec: `Domain::IntersectionWith` (exact set
intersection; on normalized inputs the pairwise enumeration is already
normalized). -/
def Domain.IntersectionWith (a b : Domain) : Domain :=
  ⟨a.intervals.flatMap fun p =>
    b.intervals.filterMap fun q =>
      let lo := max p.1 q.1
      let hi := min p.2 q.2
      if lo ≤ hi then some (lo, hi) else none⟩

/-- Modelled from the spec: `Domain::IsIncludedIn` (exact set inclusion for
normalized arguments: every interval fits inside one interval of the
other domain). -/
def Domain.IsIncludedIn (a b : Domain) : Bool :=
  a.intervals.all fun p =>
    b.intervals.any fun q => decide (q.1 ≤ p.1) && decide (p.2 ≤ q.2)

/-- Modelled from the spec: `Domain::AdditionWith` (exact Minkowski sum). -/
def Domain.AdditionWith (a b : Domain) : Domain :=
  ⟨normIvs (a.intervals.flatMap fun p =>
    b.intervals.map fun q => (p.1 + q.1, p.2 + q.2))⟩

/-- Modelled from the spec: `Domain::MultiplicationBy` (the exact set of
multiples; `×0` of a non-empty domain is `{0}`). -/
def Domain.MultiplicationBy (d : Domain) (c : Int) : Domain :=
  if c = 0 then ⟨if d.intervals.isEmpty then [] else [(0, 0)]⟩
  else if c = 1 then d
  else
    ⟨normIvs (d.intervals.flatMap fun p =>
      if p.1 ≤ p.2 then
        (List.range (p.2 - p.1 + 1).toNat).map fun i =>
          ((p.1 + (i : Int)) * c, (p.1 + (i : Int)) * c)
      else [])⟩

/-- Modelled from the spec: `Domain::InverseMultiplicationBy` for a positive
factor: `{x | g·x ∈ d}`. -/
def Domain.InverseMultiplicationBy (d : Domain) (g : Nat) : Domain :=
  if g = 0 then ⟨[]⟩
  else
    ⟨normIvs (d.intervals.filterMap fun p =>
      let lo := -(Int.fdiv (-p.1) (g : Int))
      let hi := Int.fdiv p.2 (g : Int)
      if lo ≤ hi then some (lo, hi) else none)⟩

/-- Modelled from the spec: `Domain::RelaxIfTooComplex` widens a union with
too many intervals back to its hull. -/
def Domain.RelaxIfTooComplex (d : Domain) : Domain :=
  if d.intervals.length > 100 then
    if d.IsEmpty then d else Domain.interval d.Min d.Max
  else d

/-- Modelled from the spec: `SimplifyUsingImpliedDomain`; simplification of a
domain knowing that values lie in `implied`.  Modelled as the exact
intersection (a sound representative of the C++ simplification for the
properties below, which never inspect its value). -/
def Domain.SimplifyUsingImpliedDomain (d implied : Domain) : Domain :=
  d.IntersectionWith implied

/-- Modelled from the spec: turn the flat `domain` field of a proto
(`[lb0, ub0, lb1, ub1, ...]`) into interval pairs. -/
def flatToPairs : List Int → List (Int × Int)
  | a :: b :: rest => (a, b) :: flatToPairs rest
  | _ => []

/-- Modelled from the spec: `ReadDomainFromProto` (from the flat int list). -/
def ReadDomainFromProto (flat : List Int) : Domain := ⟨normIvs (flatToPairs flat)⟩

/-- Modelled from the spec: `FillDomainInProto` serializes a domain back to
the flat list of bounds. -/
def FillDomainInProto (d : Domain) : List Int :=
  d.intervals.flatMap fun p => [p.1, p.2]

/-!  ### Proto messages (modelled from the spec, section 6) -/

/-- Modelled from the spec: `IntegerVariableProto` (only its flat `domain`
field is used by the translation unit). -/
structure IntegerVariableProto where
  domain : List Int
deriving DecidableEq

/-- Modelled from the spec: `LinearConstraintProto`. -/
structure LinearConstraintProto where
  vars : List Int
  coeffs : List Int
  domain : List Int
deriving DecidableEq

/-- Modelled from the spec: `ConstraintProto`, restricted to the parts the
embedded operations touch (enforcement literals and a linear body). -/
structure ConstraintProto where
  enforcement_literal : List Int
  linear : Option LinearConstraintProto
deriving DecidableEq

/-- Modelled from the spec: `CpObjectiveProto`.  The `double` fields `offset`
and `scaling_factor` are modelled as exact rationals. -/
structure CpObjectiveProto where
  vars : List Int
  coeffs : List Int
  domain : List Int
  offset : Rat
  scaling_factor : Rat
deriving DecidableEq

/-- Modelled from the spec: the working model (variables, constraints and
objective; the C++ `variables` field is named `variables_`, `variables` being
reserved in Lean). -/
structure CpModelProto where
  variables_ : List IntegerVariableProto
  constraints : List ConstraintProto
  objective : CpObjectiveProto
deriving DecidableEq

/-!  ### Association-list helpers (for the hash maps of the context) -/

/-- Lookup in an association list (first binding wins), as `flat_hash_map`
lookup. -/
def alookup [DecidableEq κ] : List (κ × β) → κ → Option β
  | [], _ => none
  | p :: rest, v => if p.1 = v then some p.2 else alookup rest v

/-- `map[v]` with default `0`: the value of a sparse int map at a key. -/
def mapGet (m : List (Nat × Int)) (v : Nat) : Int := (alookup m v).getD 0

/-- `map[v] = x`: replace the binding of `v` (or append a new one). -/
def mapSet [DecidableEq κ] : List (κ × β) → κ → β → List (κ × β)
  | [], v, x => [(v, x)]
  | p :: rest, v, x => if p.1 = v then (v, x) :: rest else p :: mapSet rest v x

/-- `map.erase(v)`: drop every binding of `v`. -/
def mapErase [DecidableEq κ] (m : List (κ × β)) (v : κ) : List (κ × β) :=
  m.filter fun p => decide (p.1 ≠ v)

/-!  ### The `AffineRelation` union-find

Modelled from the spec (section 4.3): the repository stores, for every
variable, its relation `var = coeff · representative + offset` to the class
representative, kept fully path-compressed, together with class sizes.
`TryAdd` merges the classes of `x` and `y` given `x = c·y + o`, chooses the
new representative among the allowed sides (larger class on ties of
permission), rewrites the absorbed class, and returns false when the two
variables are already related or when the merged relation is not expressible
with integer coefficients.
-/

/-- Modelled from the spec: `AffineRelation::Relation`, the triple
`(representative, coeff, offset)` with `var = coeff·rep + offset`. -/
structure AffineRel where
  representative : Nat
  coeff : Int
  offset : Int
deriving DecidableEq

/-- Modelled from the spec: the state of one `AffineRelation` repository. -/
structure AffineRelationRepo where
  rel : List (Nat × AffineRel)
  sizes : List (Nat × Nat)
deriving DecidableEq

/-- Modelled from the spec: `AffineRelation::Get` (identity for roots). -/
def AffineRelationRepo.Get (repo : AffineRelationRepo) (v : Nat) : AffineRel :=
  (alookup repo.rel v).getD ⟨v, 1, 0⟩

/-- Modelled from the spec: `AffineRelation::ClassSize`. -/
def AffineRelationRepo.ClassSize (repo : AffineRelationRepo) (v : Nat) : Nat :=
  (alookup repo.sizes (repo.Get v).representative).getD 1

/-- Modelled from the spec: `AffineRelation::TryAdd` with representative
permissions.  Adds `x = c·y + o`. -/
def AffineRelationRepo.TryAdd (repo : AffineRelationRepo) (x y : Nat)
    (c o : Int) (allowX allowY : Bool) : Bool × AffineRelationRepo :=
  let rx := repo.Get x
  let ry := repo.Get y
  if rx.representative = ry.representative then (false, repo)
  else
    let szx := repo.ClassSize x
    let szy := repo.ClassSize y
    let useX := if allowX ≠ allowY then allowX else szx ≥ szy
    if useX then
      -- New root: Rx.  From x = c·y + o:  Ry = (a/(c·d))·Rx + (b − c·e − o)/(c·d).
      let cd := c * ry.coeff
      if cd = 0 then (false, repo)
      else if rx.coeff.tmod cd ≠ 0 ∨ (rx.offset - c * ry.offset - o).tmod cd ≠ 0 then
        (false, repo)
      else
        let nc := rx.coeff.tdiv cd
        let no := (rx.offset - c * ry.offset - o).tdiv cd
        let rewritten := repo.rel.map fun p =>
          if p.2.representative = ry.representative then
            (p.1, AffineRel.mk rx.representative (p.2.coeff * nc)
              (p.2.coeff * no + p.2.offset))
          else p
        (true,
         ⟨rewritten ++ [(ry.representative, ⟨rx.representative, nc, no⟩)],
          mapSet (mapErase repo.sizes ry.representative) rx.representative
            (szx + szy)⟩)
    else
      -- New root: Ry.  Rx = (c·d/a)·Ry + (c·e + o − b)/a.
      let a := rx.coeff
      if a = 0 then (false, repo)
      else if (c * ry.coeff).tmod a ≠ 0 ∨ (c * ry.offset + o - rx.offset).tmod a ≠ 0 then
        (false, repo)
      else
        let nc := (c * ry.coeff).tdiv a
        let no := (c * ry.offset + o - rx.offset).tdiv a
        let rewritten := repo.rel.map fun p =>
          if p.2.representative = rx.representative then
            (p.1, AffineRel.mk ry.representative (p.2.coeff * nc)
              (p.2.coeff * no + p.2.offset))
          else p
        (true,
         ⟨rewritten ++ [(rx.representative, ⟨ry.representative, nc, no⟩)],
          mapSet (mapErase repo.sizes rx.representative) ry.representative
            (szx + szy)⟩)

/-!  ### The presolve context state -/

/-- The state of `PresolveContext`, restricted to the fields that the
embedded member functions read or write.  (The literal-value encoding tables
are omitted: none of the embedded operations touch them.) -/
structure PresolveContext where
  working_model : CpModelProto
  domains : List Domain
  modified_domains : Finset Nat
  is_unsat : Bool
  keep_all_feasible_solutions : Bool
  enable_stats : Bool
  num_presolve_operations : Nat
  stats_by_rule_name : List (String × Nat)
  constant_to_ref : List (Int × Nat)
  affine_relations_ : AffineRelationRepo
  var_equiv_relations_ : AffineRelationRepo
  affine_constraints : Finset Nat
  var_to_constraints_ : List (Finset Int)
  var_to_num_linear1_ : List Nat
  var_to_ub_only_constraints : List (Finset Nat)
  var_to_lb_only_constraints : List (Finset Nat)
  constraint_to_vars_ : List (List Nat)
  constraint_to_linear1_var_ : List Int
  constraint_to_intervals_ : List (List Nat)
  interval_usage_ : List Nat
  abs_relations : List (Int × Nat)
  objective_map : List (Nat × Int)
  objective_offset : Rat
  objective_scaling_factor : Rat
  objective_domain : Domain
  objective_domain_is_constraining : Bool
deriving DecidableEq

/-- The domain stored for the variable underlying a reference. -/
def PresolveContext.domOf (ctx : PresolveContext) (ref : Int) : Domain :=
  ctx.domains.getD (refVar ref) ⟨[]⟩

/-- `PresolveContext::DomainIsEmpty`. -/
def PresolveContext.DomainIsEmpty (ctx : PresolveContext) (ref : Int) : Bool :=
  (ctx.domOf ref).IsEmpty

/-- `PresolveContext::IsFixed`. -/
def PresolveContext.IsFixed (ctx : PresolveContext) (ref : Int) : Bool :=
  (ctx.domOf ref).IsFixed

/-- `PresolveContext::CanBeUsedAsLiteral`. -/
def PresolveContext.CanBeUsedAsLiteral (ctx : PresolveContext) (ref : Int) : Bool :=
  decide ((ctx.domOf ref).Min ≥ 0) && decide ((ctx.domOf ref).Max ≤ 1)

/-- `PresolveContext::LiteralIsTrue`. -/
def PresolveContext.LiteralIsTrue (ctx : PresolveContext) (lit : Int) : Bool :=
  if RefIsPositive lit then (ctx.domOf lit).Min == 1
  else (ctx.domOf lit).Max == 0

/-- `PresolveContext::LiteralIsFalse`. -/
def PresolveContext.LiteralIsFalse (ctx : PresolveContext) (lit : Int) : Bool :=
  if RefIsPositive lit then (ctx.domOf lit).Max == 0
  else (ctx.domOf lit).Min == 1

/-- `PresolveContext::MinOf` (of a reference). -/
def PresolveContext.MinOf (ctx : PresolveContext) (ref : Int) : Int :=
  if RefIsPositive ref then (ctx.domOf ref).Min else -(ctx.domOf ref).Max

/-- `PresolveContext::MaxOf` (of a reference). -/
def PresolveContext.MaxOf (ctx : PresolveContext) (ref : Int) : Int :=
  if RefIsPositive ref then (ctx.domOf ref).Max else -(ctx.domOf ref).Min

/-- `PresolveContext::DomainOf`. -/
def PresolveContext.DomainOf (ctx : PresolveContext) (ref : Int) : Domain :=
  if RefIsPositive ref then ctx.domOf ref else (ctx.domOf ref).Negation

/-- `PresolveContext::DomainContains`. -/
def PresolveContext.DomainContains (ctx : PresolveContext) (ref : Int) (value : Int) : Bool :=
  if !RefIsPositive ref then (ctx.domOf ref).Contains (-value)
  else (ctx.domOf ref).Contains value

/-- `PresolveContext::IntersectDomainWith`.  The `domain_modified` out-pointer
is modelled by an `Option Bool` passed in and returned (a `none` argument is
the C++ `nullptr`).  Returns `(return value, new context, out-flag)`. -/
def PresolveContext.IntersectDomainWith (ctx : PresolveContext) (ref : Int)
    (domain : Domain) (domain_modified : Option Bool) :
    Bool × PresolveContext × Option Bool :=
  let var := refVar ref
  let cur := ctx.domains.getD var ⟨[]⟩
  if RefIsPositive ref then
    if cur.IsIncludedIn domain then (true, ctx, domain_modified)
    else
      let nd := cur.IntersectionWith domain
      let ctx1 := { ctx with domains := ctx.domains.set var nd,
                             modified_domains := insert var ctx.modified_domains }
      let dm := if domain_modified.isSome then some true else none
      if nd.IsEmpty then (false, { ctx1 with is_unsat := true }, dm)
      else (true, ctx1, dm)
  else
    let temp := domain.Negation
    if cur.IsIncludedIn temp then (true, ctx, domain_modified)
    else
      let nd := cur.IntersectionWith temp
      let ctx1 := { ctx with domains := ctx.domains.set var nd,
                             modified_domains := insert var ctx.modified_domains }
      let dm := if domain_modified.isSome then some true else none
      if nd.IsEmpty then (false, { ctx1 with is_unsat := true }, dm)
      else (true, ctx1, dm)

/-- `PresolveContext::SetLiteralToFalse`. -/
def PresolveContext.SetLiteralToFalse (ctx : PresolveContext) (lit : Int) :
    Bool × PresolveContext :=
  let var := PositiveRef lit
  let value : Int := if RefIsPositive lit then 0 else 1
  let r := ctx.IntersectDomainWith var (Domain.single value) none
  (r.1, r.2.1)

/-- `PresolveContext::SetLiteralToTrue`. -/
def PresolveContext.SetLiteralToTrue (ctx : PresolveContext) (lit : Int) :
    Bool × PresolveContext :=
  ctx.SetLiteralToFalse (NegatedRef lit)

/-- `PresolveContext::UpdateRuleStats`. -/
def PresolveContext.UpdateRuleStats (ctx : PresolveContext) (name : String) :
    PresolveContext :=
  let ctx1 :=
    if ctx.enable_stats then
      { ctx with stats_by_rule_name := mapSet ctx.stats_by_rule_name name
                   (((alookup ctx.stats_by_rule_name name).getD 0) + 1) }
    else ctx
  { ctx1 with num_presolve_operations := ctx1.num_presolve_operations + 1 }

/-- `PresolveContext::ConstraintVariableGraphIsUpToDate`. -/
def PresolveContext.ConstraintVariableGraphIsUpToDate (ctx : PresolveContext) : Bool :=
  ctx.constraint_to_vars_.length == ctx.working_model.constraints.length

/-- Modify the `i`-th entry of a list in place (no-op out of range), as a
`std::vector` element update. -/
def listModify (l : List α) (i : Nat) (f : α → α) : List α :=
  match l.get? i with
  | some x => l.set i (f x)
  | none => l

/-- `var_to_constraints_[v].insert(c)`. -/
def PresolveContext.vtcInsert (ctx : PresolveContext) (v : Nat) (c : Int) :
    PresolveContext :=
  { ctx with var_to_constraints_ := listModify ctx.var_to_constraints_ v (insert c) }

/-- `var_to_constraints_[v].erase(c)`. -/
def PresolveContext.vtcErase (ctx : PresolveContext) (v : Nat) (c : Int) :
    PresolveContext :=
  { ctx with var_to_constraints_ := listModify ctx.var_to_constraints_ v (·.erase c) }

/-- `var_to_constraints_[v]` (empty set out of range). -/
def PresolveContext.vtcGet (ctx : PresolveContext) (v : Nat) : Finset Int :=
  ctx.var_to_constraints_.getD v ∅

/-- `PresolveContext::AddRelation` (source lines 340-357): if `|c| = 1` and a
representative is usable as a literal, restrict the choice of the merged
representative accordingly. -/
def PresolveContext.AddRelation (ctx : PresolveContext) (x y : Nat) (c o : Int)
    (repo : AffineRelationRepo) : Bool × AffineRelationRepo :=
  if c.natAbs ≠ 1 then repo.TryAdd x y c o true true
  else
    let rep_x := (repo.Get x).representative
    let rep_y := (repo.Get y).representative
    let allow_rep_x := ctx.CanBeUsedAsLiteral (rep_x : Int)
    let allow_rep_y := ctx.CanBeUsedAsLiteral (rep_y : Int)
    if allow_rep_x || allow_rep_y then repo.TryAdd x y c o allow_rep_x allow_rep_y
    else repo.TryAdd x y c o true true

/-- The composed affine relation of a reference through both repositories
(source lines 489-499), as a function of the two repository states. -/
def getAffineRelationOf (aff equiv : AffineRelationRepo) (ref : Int) : AffineRel :=
  let r := aff.Get (refVar ref)
  let o := equiv.Get r.representative
  let r1 : AffineRel :=
    ⟨o.representative, if o.coeff == -1 then -r.coeff else r.coeff, r.offset⟩
  if !RefIsPositive ref then ⟨r1.representative, -r1.coeff, -r1.offset⟩ else r1

/-- `PresolveContext::GetAffineRelation`. -/
def PresolveContext.GetAffineRelation (ctx : PresolveContext) (ref : Int) : AffineRel :=
  getAffineRelationOf ctx.affine_relations_ ctx.var_equiv_relations_ ref

/-- `PresolveContext::GetVariableRepresentative` (uses only the equivalence
repository, where `|coeff| = 1` and `offset = 0`). -/
def PresolveContext.GetVariableRepresentative (ctx : PresolveContext) (ref : Int) : Int :=
  let r := ctx.var_equiv_relations_.Get (refVar ref)
  if RefIsPositive ref = (r.coeff == 1) then (r.representative : Int)
  else NegatedRef (r.representative : Int)

/-- `PresolveContext::ExploitFixedDomain` (source lines 359-372). -/
def PresolveContext.ExploitFixedDomain (ctx : PresolveContext) (var : Nat) :
    PresolveContext :=
  let mn := ctx.MinOf (var : Int)
  match alookup ctx.constant_to_ref mn with
  | some representative =>
    if representative ≠ var then
      let r1 := ctx.AddRelation var representative 1 0 ctx.affine_relations_
      let ctx1 := { ctx with affine_relations_ := r1.2 }
      let r2 := ctx1.AddRelation var representative 1 0 ctx1.var_equiv_relations_
      { ctx1 with var_equiv_relations_ := r2.2 }
    else ctx
  | none => { ctx with constant_to_ref := ctx.constant_to_ref ++ [(mn, var)] }

/-- `PresolveContext::StoreAffineRelation` (source lines 374-399).  The C++
receives the defining constraint by reference and stores its address in
`affine_constraints`; the model passes the constraint's index instead. -/
def PresolveContext.StoreAffineRelation (ctx : PresolveContext) (ct : Nat)
    (ref_x ref_y : Int) (coeff offset : Int) : PresolveContext :=
  if ctx.is_unsat then ctx
  else if ctx.IsFixed ref_x || ctx.IsFixed ref_y then ctx
  else
    let x := refVar ref_x
    let y := refVar ref_y
    let c := if RefIsPositive ref_x == RefIsPositive ref_y then coeff else -coeff
    let o := if RefIsPositive ref_x then offset else -offset
    let r1 := ctx.AddRelation x y c o ctx.affine_relations_
    let ctx1 := { ctx with affine_relations_ := r1.2 }
    let r2 :=
      if (c == 1 || c == -1) && o == 0 then
        ctx1.AddRelation x y c o ctx1.var_equiv_relations_
      else (false, ctx1.var_equiv_relations_)
    let ctx2 := { ctx1 with var_equiv_relations_ := r2.2 }
    let added := r1.1 || r2.1
    if added then
      let ctx3 :=
        if (ctx2.GetAffineRelation (x : Int)).representative ≠ x then
          { ctx2 with modified_domains := insert x ctx2.modified_domains }
        else ctx2
      let ctx4 :=
        if (ctx3.GetAffineRelation (y : Int)).representative ≠ y then
          { ctx3 with modified_domains := insert y ctx3.modified_domains }
        else ctx3
      { ctx4 with affine_constraints := insert ct ctx4.affine_constraints }
    else ctx2

/-- `PresolveContext::StoreBooleanEqualityRelation` (source lines 401-442). -/
def PresolveContext.StoreBooleanEqualityRelation (ctx : PresolveContext)
    (ref_a ref_b : Int) : PresolveContext :=
  if ref_a = ref_b then ctx
  else if ref_a = NegatedRef ref_b then { ctx with is_unsat := true }
  else
    let var_a := refVar ref_a
    let var_b := refVar ref_b
    if (ctx.GetAffineRelation (var_a : Int)).representative = var_b ∨
       (ctx.GetAffineRelation (var_b : Int)).representative = var_a then ctx
    else
      let ctIndex := ctx.working_model.constraints.length
      let arg : LinearConstraintProto :=
        if RefIsPositive ref_a == RefIsPositive ref_b then
          -- a = b
          ⟨[(var_a : Int), (var_b : Int)], [1, -1], [0, 0]⟩
        else
          -- a = 1 - b
          ⟨[(var_a : Int), (var_b : Int)], [1, 1], [1, 1]⟩
      let ct : ConstraintProto := ⟨[], some arg⟩
      let ctx1 := { ctx with working_model :=
        { ctx.working_model with constraints := ctx.working_model.constraints ++ [ct] } }
      if RefIsPositive ref_a == RefIsPositive ref_b then
        ctx1.StoreAffineRelation ctIndex (var_a : Int) (var_b : Int) 1 0
      else
        ctx1.StoreAffineRelation ctIndex (var_a : Int) (var_b : Int) (-1) 1

/-- `PresolveContext::StoreAbsRelation` (source lines 444-448). -/
def PresolveContext.StoreAbsRelation (ctx : PresolveContext)
    (target_ref ref : Int) : Bool × PresolveContext :=
  match alookup ctx.abs_relations target_ref with
  | some _ => (false, ctx)
  | none =>
    (true, { ctx with abs_relations := ctx.abs_relations ++ [(target_ref, refVar ref)] })

/-- The `positive_possible` test of `GetLiteralRepresentative` (source
line 469). -/
def positivePossible (c o : Int) : Bool := o == 0 || c + o == 1

/-- The `negative_possible` test of `GetLiteralRepresentative` (source
line 470). -/
def negativePossible (c o : Int) : Bool := o == 1 || c + o == 0

/-- `PresolveContext::GetLiteralRepresentative` (source lines 450-477). -/
def PresolveContext.GetLiteralRepresentative (ctx : PresolveContext) (ref : Int) : Int :=
  let r := ctx.GetAffineRelation (PositiveRef ref)
  if !ctx.CanBeUsedAsLiteral (r.representative : Int) then ref
  else
    if RefIsPositive ref then
      if positivePossible r.coeff r.offset then (r.representative : Int)
      else NegatedRef (r.representative : Int)
    else
      if positivePossible r.coeff r.offset then NegatedRef (r.representative : Int)
      else (r.representative : Int)

/-- Extend a list with a default element up to length `n` (the growing case
of `std::vector::resize`; the context only ever grows these vectors). -/
def padTo (l : List α) (n : Nat) (dflt : α) : List α :=
  l ++ List.replicate (n - l.length) dflt

/-- The trailing resize block of `InitializeNewDomains` (source lines
511-515); `modified_domains.Resize` is a no-op on the `Finset` model. -/
def PresolveContext.resizeVarStructures (ctx : PresolveContext) : PresolveContext :=
  let n := ctx.domains.length
  { ctx with
    var_to_constraints_ := padTo ctx.var_to_constraints_ n ∅,
    var_to_num_linear1_ := padTo ctx.var_to_num_linear1_ n 0,
    var_to_ub_only_constraints := padTo ctx.var_to_ub_only_constraints n ∅,
    var_to_lb_only_constraints := padTo ctx.var_to_lb_only_constraints n ∅ }

/-- The loop of `InitializeNewDomains` (source lines 502-516) over the
variable protos not yet mirrored in `domains`; stops early (skipping the
resize block) when a new domain is empty. -/
def initDomLoop : PresolveContext → List IntegerVariableProto → PresolveContext
  | ctx, [] => ctx.resizeVarStructures
  | ctx, vp :: rest =>
    let d := ReadDomainFromProto vp.domain
    let ctx1 := { ctx with domains := ctx.domains ++ [d] }
    if d.IsEmpty then { ctx1 with is_unsat := true }
    else
      let i := ctx1.domains.length - 1
      let ctx2 := if ctx1.IsFixed (i : Int) then ctx1.ExploitFixedDomain i else ctx1
      initDomLoop ctx2 rest

/-- `PresolveContext::InitializeNewDomains`. -/
def PresolveContext.InitializeNewDomains (ctx : PresolveContext) : PresolveContext :=
  initDomLoop ctx (ctx.working_model.variables_.drop ctx.domains.length)

/-- `PresolveContext::NewIntVar` (source lines 25-30); returns the new
variable index together with the new state. -/
def PresolveContext.NewIntVar (ctx : PresolveContext) (domain : Domain) :
    Nat × PresolveContext :=
  let ctx1 := { ctx with working_model :=
    { ctx.working_model with
      variables_ := ctx.working_model.variables_ ++ [IntegerVariableProto.mk (FillDomainInProto domain)] } }
  let ctx2 := ctx1.InitializeNewDomains
  (ctx2.working_model.variables_.length - 1, ctx2)

/-- `PresolveContext::NewBoolVar`. -/
def PresolveContext.NewBoolVar (ctx : PresolveContext) : Nat × PresolveContext :=
  ctx.NewIntVar (Domain.interval 0 1)

/-- `PresolveContext::GetOrCreateConstantVar` (source lines 34-43). -/
def PresolveContext.GetOrCreateConstantVar (ctx : PresolveContext) (cst : Int) :
    Nat × PresolveContext :=
  let ctx1 :=
    if (alookup ctx.constant_to_ref cst).isSome then ctx
    else
      let ctx0 := { ctx with
        constant_to_ref := ctx.constant_to_ref ++ [(cst, ctx.working_model.variables_.length)],
        working_model := { ctx.working_model with
          variables_ := ctx.working_model.variables_ ++ [IntegerVariableProto.mk [cst, cst]] } }
      ctx0.InitializeNewDomains
  ((alookup ctx1.constant_to_ref cst).getD 0, ctx1)

/-- Modelled from the spec: `NotifyThatModelIsUnsat` sets the sticky
`is_unsat` flag (declared in the header; its body is not part of this
translation unit). -/
def PresolveContext.NotifyThatModelIsUnsat (ctx : PresolveContext) : PresolveContext :=
  { ctx with is_unsat := true }

/-- The loop of `ReadObjectiveFromProto` (source lines 730-743) over the
`(vars(i), coeffs(i))` entries of the objective proto. -/
def readObjLoop : PresolveContext → List (Int × Int) → PresolveContext
  | ctx, [] => ctx
  | ctx, (ref, c0) :: rest =>
    let coeff := if !RefIsPositive ref then -c0 else c0
    let var := refVar ref
    let nv := mapGet ctx.objective_map var + coeff
    let m1 := mapSet ctx.objective_map var nv
    let ctx1 :=
      if nv = 0 then
        ({ ctx with objective_map := mapErase m1 var } : PresolveContext).vtcErase var (-1)
      else
        ({ ctx with objective_map := m1 } : PresolveContext).vtcInsert var (-1)
    readObjLoop ctx1 rest

/-- `PresolveContext::ReadObjectiveFromProto` (source lines 711-744). -/
def PresolveContext.ReadObjectiveFromProto (ctx : PresolveContext) : PresolveContext :=
  let obj := ctx.working_model.objective
  let ctx1 := { ctx with
    objective_offset := obj.offset,
    objective_scaling_factor := if obj.scaling_factor = 0 then 1 else obj.scaling_factor }
  let ctx2 :=
    if obj.domain ≠ [] then
      { ctx1 with objective_domain_is_constraining := true,
                  objective_domain := ReadDomainFromProto obj.domain }
    else
      { ctx1 with objective_domain_is_constraining := false,
                  objective_domain := Domain.AllValues }
  let ctx3 := { ctx2 with objective_map := [] }
  readObjLoop ctx3 (ctx3.working_model.objective.vars.zip ctx3.working_model.objective.coeffs)

/-- Insertion step of a generic insertion sort (used to model the
`std::sort` calls that make map iteration deterministic). -/
def insLe (le : α → α → Bool) (a : α) : List α → List α
  | [] => [a]
  | b :: rest => if le a b then a :: b :: rest else b :: insLe le a rest

/-- Generic insertion sort. -/
def sortLe (le : α → α → Bool) : List α → List α
  | [] => []
  | a :: rest => insLe le a (sortLe le rest)

/-- Lexicographic order on `std::pair<int, int64>` objective entries. -/
def pairLe (p q : Nat × Int) : Bool :=
  decide (p.1 < q.1) || (p.1 == q.1 && decide (p.2 ≤ q.2))

/-- The per-entry tail of the first loop of `CanonicalizeObjective` (source
lines 780-814): fold a fixed variable into the offset, or rewrite the entry
onto its affine representative; returns the updated context and running
`offset_change`. -/
def canonTail (ctx1 : PresolveContext) (off : Int) (var : Nat) (coeff : Int) :
    PresolveContext × Int :=
  if ctx1.IsFixed (var : Int) then
    let off1 := off + coeff * ctx1.MinOf (var : Int)
    let ctx2 := (ctx1.vtcErase var (-1))
    let ctx3 := { ctx2 with objective_map := mapErase ctx2.objective_map var }
    (ctx3, off1)
  else
    let r := ctx1.GetAffineRelation (var : Int)
    if r.representative = var then (ctx1, off)
    else
      let ctx2 := { ctx1 with objective_map := mapErase ctx1.objective_map var }
      let ctx3 := ctx2.vtcErase var (-1)
      let off1 := off + coeff * r.offset
      let new_coeff := mapGet ctx3.objective_map r.representative + coeff * r.coeff
      let ctx4 := { ctx3 with
        objective_map := mapSet ctx3.objective_map r.representative new_coeff }
      if new_coeff = 0 then
        let ctx5 := { ctx4 with
          objective_map := mapErase ctx4.objective_map r.representative }
        (ctx5.vtcErase r.representative (-1), off1)
      else
        let ctx5 := ctx4.vtcInsert r.representative (-1)
        if ctx5.IsFixed (r.representative : Int) then
          let off2 := off1 + new_coeff * ctx5.MinOf (r.representative : Int)
          let ctx6 := ctx5.vtcErase r.representative (-1)
          let ctx7 := { ctx6 with
            objective_map := mapErase ctx6.objective_map r.representative }
          (ctx7, off2)
        else (ctx5, off1)

/-- The first loop of `CanonicalizeObjective` (source lines 761-815) over the
snapshot `tmp_entries`; threads the running `offset_change` and returns
`false` in the first component on the early `return false` path. -/
def canonLoop : PresolveContext → Int → List (Nat × Int) →
    Bool × PresolveContext × Int
  | ctx, off, [] => (true, ctx, off)
  | ctx, off, (var, _) :: rest =>
    match alookup ctx.objective_map var with
    | none => canonLoop ctx off rest
    | some coeff =>
      -- "If a variable only appear in objective, we can fix it!"
      let fixCond :=
        !ctx.keep_all_feasible_solutions && !ctx.objective_domain_is_constraining &&
        ctx.ConstraintVariableGraphIsUpToDate &&
        ((ctx.vtcGet var).card == 1) && decide ((-1 : Int) ∈ ctx.vtcGet var)
      let step1 : Bool × PresolveContext :=
        if fixCond then
          let ctxS := ctx.UpdateRuleStats "objective: variable not used elsewhere"
          if coeff > 0 then
            let r := ctxS.IntersectDomainWith (var : Int)
              (Domain.single (ctxS.MinOf (var : Int))) none
            (r.1, r.2.1)
          else
            let r := ctxS.IntersectDomainWith (var : Int)
              (Domain.single (ctxS.MaxOf (var : Int))) none
            (r.1, r.2.1)
        else (true, ctx)
      if step1.1 = false then (false, step1.2, off)
      else
        let n := canonTail step1.2 off var coeff
        canonLoop n.1 n.2 rest

/-- `PresolveContext::CanonicalizeObjective` (source lines 746-865). -/
def PresolveContext.CanonicalizeObjective (ctx : PresolveContext) :
    Bool × PresolveContext :=
  let r := canonLoop ctx 0 ctx.objective_map
  if r.1 = false then (false, r.2.1)
  else
    let ctx1 := r.2.1
    let offset_change := r.2.2
    let sorted := sortLe pairLe ctx1.objective_map
    let acc := sorted.foldl
      (fun (acc : Nat × Domain) entry =>
        (Nat.gcd acc.1 entry.2.natAbs,
         ((acc.2.AdditionWith
            ((ctx1.DomainOf (entry.1 : Int)).MultiplicationBy entry.2)).RelaxIfTooComplex)))
      (0, Domain.single 0)
    let gcd := acc.1
    let implied_domain := acc.2
    let dom1 := ((ctx1.objective_domain.AdditionWith
      (Domain.single (-offset_change))).IntersectionWith
        implied_domain).SimplifyUsingImpliedDomain implied_domain
    let ctx2 := { ctx1 with
      objective_domain := dom1,
      objective_offset := ctx1.objective_offset + (offset_change : Rat) }
    let ctx3 :=
      if gcd > 1 then
        { ctx2 with
          objective_map := ctx2.objective_map.map fun p => (p.1, p.2.tdiv (gcd : Int)),
          objective_domain := ctx2.objective_domain.InverseMultiplicationBy gcd,
          objective_offset := ctx2.objective_offset / (gcd : Rat),
          objective_scaling_factor := ctx2.objective_scaling_factor * (gcd : Rat) }
      else ctx2
    if ctx3.objective_domain.IsEmpty then (false, ctx3)
    else
      (true, { ctx3 with objective_domain_is_constraining :=
        !((implied_domain.IntersectionWith
            (Domain.interval kint64min ctx3.objective_domain.Max)).IsIncludedIn
          ctx3.objective_domain) })

/-- Sign-normalize one `(vars(i), coeffs(i))` term of the equality used by
`SubstituteVariableInObjective` (source lines 883-889). -/
def normTerm (p : Int × Int) : Nat × Int :=
  if !RefIsPositive p.1 then (refVar p.1, -p.2) else (refVar p.1, p.2)

/-- The loop of `SubstituteVariableInObjective` (source lines 883-904);
threads the collected `new_vars_in_objective`. -/
def substLoop (varInEq : Nat) (multiplier : Int) :
    PresolveContext → List Nat → List (Int × Int) → PresolveContext × List Nat
  | ctx, newVars, [] => (ctx, newVars)
  | ctx, newVars, t :: rest =>
    let var := (normTerm t).1
    let coeff := (normTerm t).2
    if var = varInEq then substLoop varInEq multiplier ctx newVars rest
    else
      let map_ref := mapGet ctx.objective_map var
      let newVars1 := if map_ref = 0 then newVars ++ [var] else newVars
      let nv := map_ref - coeff * multiplier
      let m1 := mapSet ctx.objective_map var nv
      let ctx1 :=
        if nv = 0 then
          ({ ctx with objective_map := mapErase m1 var } : PresolveContext).vtcErase var (-1)
        else
          ({ ctx with objective_map := m1 } : PresolveContext).vtcInsert var (-1)
      substLoop varInEq multiplier ctx1 newVars1 rest

/-- `PresolveContext::SubstituteVariableInObjective` (source lines 867-924);
the `new_vars_in_objective` out-vector is returned (the C++ `nullptr` case
merely skips the collection). -/
def PresolveContext.SubstituteVariableInObjective (ctx : PresolveContext)
    (var_in_equality : Int) (coeff_in_equality : Int) (equality : ConstraintProto) :
    PresolveContext × List Nat :=
  let lin := equality.linear.getD ⟨[], [], []⟩
  let varInEq := refVar var_in_equality
  let coeff_in_objective := mapGet ctx.objective_map varInEq
  let multiplier := coeff_in_objective.tdiv coeff_in_equality
  let r := substLoop varInEq multiplier ctx [] (lin.vars.zip lin.coeffs)
  let ctx1 := { r.1 with objective_map := mapErase r.1.objective_map varInEq }
  let ctx2 := ctx1.vtcErase varInEq (-1)
  let offsetDom := (ReadDomainFromProto lin.domain).MultiplicationBy multiplier
  let k := offsetDom.Min
  let ctx3 := { ctx2 with
    objective_offset := ctx2.objective_offset + (k : Rat),
    objective_domain := ctx2.objective_domain.AdditionWith (Domain.single (-k)),
    objective_domain_is_constraining := true }
  (ctx3, r.2)

/-- `PresolveContext::WriteObjectiveToProto` (source lines 926-948). -/
def PresolveContext.WriteObjectiveToProto (ctx : PresolveContext) : PresolveContext :=
  if ctx.objective_domain.IsEmpty then ctx.NotifyThatModelIsUnsat
  else
    let entries := sortLe pairLe ctx.objective_map
    let obj : CpObjectiveProto :=
      { vars := entries.map fun p => (p.1 : Int),
        coeffs := entries.map fun p => p.2,
        domain := FillDomainInProto ctx.objective_domain,
        offset := ctx.objective_offset,
        scaling_factor := ctx.objective_scaling_factor }
    { ctx with working_model := { ctx.working_model with objective := obj } }

/-!  ### Initial state and operation sequences -/

/-- A fresh presolve context over an empty working model (the state of a
default-constructed `PresolveContext` before any variable is created). -/
def initialContext : PresolveContext where
  working_model := ⟨[], [], ⟨[], [], [], 0, 0⟩⟩
  domains := []
  modified_domains := ∅
  is_unsat := false
  keep_all_feasible_solutions := false
  enable_stats := false
  num_presolve_operations := 0
  stats_by_rule_name := []
  constant_to_ref := []
  affine_relations_ := ⟨[], []⟩
  var_equiv_relations_ := ⟨[], []⟩
  affine_constraints := ∅
  var_to_constraints_ := []
  var_to_num_linear1_ := []
  var_to_ub_only_constraints := []
  var_to_lb_only_constraints := []
  constraint_to_vars_ := []
  constraint_to_linear1_var_ := []
  constraint_to_intervals_ := []
  interval_usage_ := []
  abs_relations := []
  objective_map := []
  objective_offset := 0
  objective_scaling_factor := 0
  objective_domain := ⟨[]⟩
  objective_domain_is_constraining := false

/-- The context operations of the domain-store invariant: variable creation
and domain mutation. -/
inductive CtxOp where
  | newVar (d : Domain)
  | newBool
  | constVar (k : Int)
  | intersect (ref : Int) (d : Domain)
  | setTrue (lit : Int)
  | setFalse (lit : Int)
deriving DecidableEq

/-- Apply one context operation (discarding returned values, as a caller
checking only `is_unsat` would). -/
def applyOp (ctx : PresolveContext) : CtxOp → PresolveContext
  | CtxOp.newVar d => (ctx.NewIntVar d).2
  | CtxOp.newBool => ctx.NewBoolVar.2
  | CtxOp.constVar k => (ctx.GetOrCreateConstantVar k).2
  | CtxOp.intersect ref d => (ctx.IntersectDomainWith ref d none).2.1
  | CtxOp.setTrue lit => (ctx.SetLiteralToTrue lit).2
  | CtxOp.setFalse lit => (ctx.SetLiteralToFalse lit).2

/-- Apply a sequence of context operations from a state. -/
def applyOps (ctx : PresolveContext) : List CtxOp → PresolveContext
  | [] => ctx
  | op :: rest => applyOps (applyOp ctx op) rest

/-- The domain-store invariant: every stored domain is non-empty, or the
model has been proved infeasible (and in a sound state the `domains` mirror
of the variable protos is complete). -/
def DomInvariant (ctx : PresolveContext) : Prop :=
  ctx.is_unsat = true ∨
    ((∀ d ∈ ctx.domains, d.IsEmpty = false) ∧
     ctx.domains.length = ctx.working_model.variables_.length)

/-- `v` is the representative of its own affine equivalence class. -/
def repSelf (ctx : PresolveContext) (v : Nat) : Prop :=
  (ctx.GetAffineRelation (v : Int)).representative = v

/-- The union-find representative invariant (spec, testable property 4):
the representative returned by `GetAffineRelation` is itself mapped to the
identity relation. -/
def repoIdem (ctx : PresolveContext) : Prop :=
  ∀ v : Nat, ctx.GetAffineRelation (((ctx.GetAffineRelation (v : Int)).representative : Nat) : Int) =
    ⟨(ctx.GetAffineRelation (v : Int)).representative, 1, 0⟩

/-- All objective coefficients stored in a sparse map are non-zero. -/
def mapNZ (m : List (Nat × Int)) : Prop := ∀ p ∈ m, p.2 ≠ 0

/-- The keys of an association list are pairwise distinct. -/
def keysNodup (m : List (Nat × Int)) : Prop := (m.map Prod.fst).Nodup

instance (m : List (Nat × Int)) : Decidable (keysNodup m) :=
  decidable_of_iff ((m.map Prod.fst).Nodup) Iff.rfl

instance (m : List (Nat × Int)) : Decidable (mapNZ m) :=
  decidable_of_iff (∀ p ∈ m, p.2 ≠ 0) Iff.rfl

/-- The gcd of the absolute values of the coefficients of an objective map. -/
def mapGcd (m : List (Nat × Int)) : Nat :=
  m.foldl (fun g p => Nat.gcd g p.2.natAbs) 0

/-- The folded variable-to-coefficient function denoted by an objective
proto: negated references contribute to their positive variable with the
opposite sign (the logical objective of the round-trip law). -/
def objCoeffFn (obj : CpObjectiveProto) (v : Nat) : Int :=
  ((obj.vars.zip obj.coeffs).map fun p =>
    if refVar p.1 = v then (if RefIsPositive p.1 then p.2 else -p.2) else 0).sum

/-- The domain denoted by the flat `domain` field of an objective proto (an
empty list means "no constraint", i.e. all int64 values). -/
def objDomainDenote (obj : CpObjectiveProto) : Domain :=
  if obj.domain = [] then Domain.AllValues else ReadDomainFromProto obj.domain

/-- The user-visible objective value `scaling_factor · (raw + offset)`
denoted by an objective proto at a raw inner value. -/
def userVisibleValue (obj : CpObjectiveProto) (raw : Rat) : Rat :=
  obj.scaling_factor * (raw + obj.offset)

/-!  ### Concrete scenario states -/

/-- Two fresh Boolean variables `0` and `1` in a fresh context. -/
def boolPairCtx : PresolveContext :=
  ((initialContext.NewBoolVar).2.NewBoolVar).2

/-- The C4 scenario: `store_boolean_equality(a, b)` on the two fresh
Booleans, then `set_literal_true(a)`. -/
def c4State : PresolveContext :=
  (((boolPairCtx.StoreBooleanEqualityRelation 0 1).SetLiteralToTrue 0)).2

/-- The C5 scenario: `StoreAffineRelation` records `x = y + 5` between the
two fresh Boolean variables (coefficient 1, offset 5). -/
def c5State : PresolveContext :=
  boolPairCtx.StoreAffineRelation 0 0 1 1 5

/-- One `store_boolean_equality(a, b)` on the two fresh Booleans. -/
def c8Once : PresolveContext :=
  boolPairCtx.StoreBooleanEqualityRelation 0 1

/-- A second, repeated `store_boolean_equality(a, b)`. -/
def c8Twice : PresolveContext :=
  c8Once.StoreBooleanEqualityRelation 0 1

/-- A context whose objective proto has `scaling_factor = 0` and
`offset = 1` (the C7 edge case). -/
def c7ZeroScalingCtx : PresolveContext :=
  { initialContext with working_model := ⟨[], [], ⟨[], [], [], 1, 0⟩⟩ }

/-- The C7 counterexample round trip. -/
def c7RoundTrip : PresolveContext :=
  c7ZeroScalingCtx.ReadObjectiveFromProto.WriteObjectiveToProto

/-- Two integer variables with domain `{0,…,4}` in a fresh context. -/
def twoVarCtx : PresolveContext :=
  (((initialContext.NewIntVar (Domain.interval 0 4)).2).NewIntVar (Domain.interval 0 4)).2

/-- A concrete objective state `3·x₀ + 6·x₁` over `twoVarCtx` with a free
objective domain (used to exercise `CanonicalizeObjective`). -/
def canonScenario : PresolveContext :=
  { twoVarCtx with
    objective_map := [(0, 3), (1, 6)],
    objective_domain := Domain.AllValues,
    keep_all_feasible_solutions := true }

/-- A concrete objective state `5·x₀ + 1·x₁` over `twoVarCtx` (used to
exercise `SubstituteVariableInObjective`). -/
def substScenario : PresolveContext :=
  { twoVarCtx with
    objective_map := [(0, 5), (1, 1)],
    objective_domain := Domain.AllValues }

/-- The equality constraint `x₀ + 2·x₁ − x₂ = 4` (the `−x₂` written as the
negated reference `-3` with coefficient `1`). -/
def substEquality : ConstraintProto := ⟨[], some ⟨[0, 1, -3], [1, 2, 1], [4, 4]⟩⟩

/-- The signed contribution of a list of `(ref, coeff)` objective terms to a
positive variable `v` (the folded coefficient function of a term list). -/
def termSum (terms : List (Int × Int)) (v : Nat) : Int :=
  (terms.map fun t =>
    if refVar t.1 = v then (if RefIsPositive t.1 then t.2 else -t.2) else 0).sum

/-- Comparison of intervals by lower bound (the sort order of `normIvs`). -/
def lbLe (a b : Int × Int) : Prop := a.1 ≤ b.1

/-- The total sign-normalized coefficient of variable `v` among the terms of
an equality constraint (terms over `varInEq` itself are skipped by the
substitution loop, so they are not counted). -/
def subSum (varInEq : Nat) (terms : List (Int × Int)) (v : Nat) : Int :=
  (terms.map fun t =>
    if (normTerm t).1 ≠ varInEq ∧ (normTerm t).1 = v then (normTerm t).2 else 0).sum

/-- A context whose objective proto reads `5·x₀ − 4·x₁` (the duplicated
positive reference `0` and the negated reference `-2` exercise the folding
performed by `ReadObjectiveFromProto`), with domain `[1,5]`, offset `2` and
scaling factor `3`. -/
def c7WitnessCtx : PresolveContext :=
  { initialContext with
    working_model := ⟨[], [], ⟨[0, -2, 0], [3, 4, 2], [1, 5], 2, 3⟩⟩ }

/-- A well-formed interval list: every stored interval is non-empty (all
`Domain` values built by the normalizing operations satisfy this). -/
def Domain.wf (d : Domain) : Prop := ∀ p ∈ d.intervals, p.1 ≤ p.2

instance (d : Domain) : Decidable d.wf :=
  decidable_of_iff (∀ p ∈ d.intervals, p.1 ≤ p.2) Iff.rfl

/-!  ### Semantic lemmas about `Domain` -/

/-- Membership in the pairwise intersection is exactly joint membership. -/
theorem Domain.contains_intersectionWith (a b : Domain) (v : Int) :
    (a.IntersectionWith b).Contains v = (a.Contains v && b.Contains v) := by
  rw [Bool.eq_iff_iff]
  simp only [Domain.Contains, Domain.IntersectionWith, List.any_eq_true,
    List.mem_flatMap, List.mem_filterMap, Bool.and_eq_true, decide_eq_true_eq]
  constructor
  · rintro ⟨x, ⟨p, hp, q, hq, hx⟩, hx1, hx2⟩
    by_cases h : max p.1 q.1 ≤ min p.2 q.2
    · rw [if_pos h] at hx
      cases hx
      exact ⟨⟨p, hp, le_trans (le_max_left _ _) hx1,
              le_trans hx2 (min_le_left _ _)⟩,
             ⟨q, hq, le_trans (le_max_right _ _) hx1,
              le_trans hx2 (min_le_right _ _)⟩⟩
    · rw [if_neg h] at hx
      cases hx
  · rintro ⟨⟨p, hp, hp1, hp2⟩, ⟨q, hq, hq1, hq2⟩⟩
    refine ⟨(max p.1 q.1, min p.2 q.2), ⟨p, hp, q, hq, ?_⟩, ?_, ?_⟩
    · rw [if_pos]
      exact le_trans (max_le hp1 hq1) (le_min hp2 hq2)
    · exact max_le hp1 hq1
    · exact le_min hp2 hq2

/-!  ### C1: `IntersectDomainWith` -/

/-- C1.  `intersect_domain(r, D)` replaces `domain[positive(r)]` by its
intersection with `D` (negating `D` first when `r` is negated); when the
current domain is already included in the (possibly negated) `D` it returns
true and changes nothing (domains, `modified_domains` and the
`domain_modified` out-flag all unchanged); otherwise it sets the bit
`modified_domains[positive(r)]`, replaces the domain by the intersection
(`nd` below, which contains exactly the common values), and it returns false
with `is_unsat` set to true exactly when the resulting domain is empty. -/
theorem c1_intersect_domain (ctx : PresolveContext) (ref : Int) (dom : Domain)
    (dm : Option Bool) (cur dEff nd : Domain)
    (hcur : cur = ctx.domains.getD (refVar ref) ⟨[]⟩)
    (hdeff : dEff = (if RefIsPositive ref then dom else dom.Negation))
    (hnd : nd = cur.IntersectionWith dEff) :
    (cur.IsIncludedIn dEff = true →
      ctx.IntersectDomainWith ref dom dm = (true, ctx, dm)) ∧
    (cur.IsIncludedIn dEff = false →
      (∀ w, nd.Contains w = (cur.Contains w && dEff.Contains w)) ∧
      ctx.IntersectDomainWith ref dom dm =
        (!nd.IsEmpty,
         { ctx with
           domains := ctx.domains.set (refVar ref) nd,
           modified_domains := insert (refVar ref) ctx.modified_domains,
           is_unsat := ctx.is_unsat || nd.IsEmpty },
         if dm.isSome then some true else none)) := by
  subst hcur hdeff hnd
  cases h : RefIsPositive ref with
  | true =>
    simp only [h, if_true]
    constructor
    · intro hinc
      simp only [PresolveContext.IntersectDomainWith, h, if_true, hinc]
    · intro hninc
      refine ⟨fun w => Domain.contains_intersectionWith _ _ w, ?_⟩
      simp only [PresolveContext.IntersectDomainWith, h, if_true, hninc,
        Bool.false_eq_true, if_false]
      split_ifs with he
      all_goals simp_all [List.getD]
  | false =>
    simp only [h, Bool.false_eq_true, if_false]
    constructor
    · intro hinc
      simp only [List.getD_eq_getElem?_getD] at hinc
      simp [PresolveContext.IntersectDomainWith, h, hinc]
    · intro hninc
      refine ⟨fun w => Domain.contains_intersectionWith _ _ w, ?_⟩
      simp only [PresolveContext.IntersectDomainWith, h, Bool.false_eq_true,
        if_false, hninc]
      split_ifs with he
      all_goals simp_all [List.getD]

/-- Witness for C1 on the spec's concrete scenario: a variable with domain
`{0,…,4}` intersected with `[2, +∞)` gives `{2,3,4}`, sets the modified bit,
returns true, and `min_of` becomes 2. -/
theorem c1_intersect_domain_witness :
    ((((initialContext.NewIntVar (Domain.interval 0 4)).2).domains.getD 0
        ⟨[]⟩).IsIncludedIn (Domain.interval 2 kint64max) = false) ∧
    (((initialContext.NewIntVar (Domain.interval 0 4)).2).IntersectDomainWith 0
        (Domain.interval 2 kint64max) none).2.1.domains.getD 0 ⟨[]⟩ = ⟨[(2, 4)]⟩ ∧
    (((initialContext.NewIntVar (Domain.interval 0 4)).2).IntersectDomainWith 0
        (Domain.interval 2 kint64max) none).1 = true ∧
    (0 ∈ (((initialContext.NewIntVar (Domain.interval 0 4)).2).IntersectDomainWith 0
        (Domain.interval 2 kint64max) none).2.1.modified_domains) ∧
    (((initialContext.NewIntVar (Domain.interval 0 4)).2).IntersectDomainWith 0
        (Domain.interval 2 kint64max) none).2.1.MinOf 0 = 2 := by
  have h := (c1_intersect_domain ((initialContext.NewIntVar (Domain.interval 0 4)).2)
    0 (Domain.interval 2 kint64max) none _ _ _ rfl rfl rfl).2 (by decide)
  refine ⟨by decide, ?_, ?_, ?_, ?_⟩
  · rw [h.2]
    decide
  · rw [h.2]
    decide
  · rw [h.2]
    decide
  · rw [h.2]
    decide

/-!  ### C10: `StoreAbsRelation` -/

/-- C10.  `store_abs_relation(target, r)` returns true and records
`(target, positive(r))` exactly when no entry for the key `target` exists
yet; whenever any entry for `target` already exists it returns false and
leaves the dictionary (and the whole context) unchanged, even when the
existing entry equals `positive(r)`. -/
theorem c10_store_abs_relation (ctx : PresolveContext) (target_ref ref : Int) :
    (alookup ctx.abs_relations target_ref = none →
      ctx.StoreAbsRelation target_ref ref =
        (true, { ctx with
                 abs_relations := ctx.abs_relations ++ [(target_ref, refVar ref)] })) ∧
    (∀ e, alookup ctx.abs_relations target_ref = some e →
      ctx.StoreAbsRelation target_ref ref = (false, ctx)) := by
  constructor
  · intro h
    simp [PresolveContext.StoreAbsRelation, h]
  · intro e h
    simp [PresolveContext.StoreAbsRelation, h]

/-- Witness for C10: on a fresh context the first store of `t = |x₁|`
succeeds, and re-storing the identical relation afterwards reports failure
and changes nothing. -/
theorem c10_store_abs_relation_witness :
    (initialContext.StoreAbsRelation 0 1 =
      (true, { initialContext with abs_relations := [(0, 1)] })) ∧
    ((initialContext.StoreAbsRelation 0 1).2.StoreAbsRelation 0 1 =
      (false, (initialContext.StoreAbsRelation 0 1).2)) := by
  constructor
  · have h := (c10_store_abs_relation initialContext 0 1).1 (by decide)
    rw [h]
    decide
  · have h := (c10_store_abs_relation (initialContext.StoreAbsRelation 0 1).2 0 1).2 1
      (by decide)
    rw [h]

/-!  ### Reference-algebra lemmas -/

/-- `positive(negated(r)) = positive(r)`. -/
theorem positiveRef_negatedRef (r : Int) : PositiveRef (NegatedRef r) = PositiveRef r := by
  simp only [PositiveRef, RefIsPositive, NegatedRef]
  by_cases h : (0 : Int) ≤ r
  · have h1 : decide (-r - 1 ≥ 0) = false := by simp only [decide_eq_false_iff_not]; omega
    have h2 : decide (r ≥ 0) = true := by simp only [decide_eq_true_eq]; omega
    simp only [h1, h2, Bool.false_eq_true, if_false, if_true]
    ring
  · have h1 : decide (-r - 1 ≥ 0) = true := by simp only [decide_eq_true_eq]; omega
    have h2 : decide (r ≥ 0) = false := by simp only [decide_eq_false_iff_not]; omega
    simp only [h1, h2, Bool.false_eq_true, if_false, if_true]

/-- Negation flips the sign of a reference. -/
theorem refIsPositive_negatedRef (r : Int) :
    RefIsPositive (NegatedRef r) = !RefIsPositive r := by
  simp only [RefIsPositive, NegatedRef]
  by_cases h : (0 : Int) ≤ r
  · have h1 : decide (-r - 1 ≥ 0) = false := by simp only [decide_eq_false_iff_not]; omega
    have h2 : decide (r ≥ 0) = true := by simp only [decide_eq_true_eq]; omega
    rw [h1, h2]
    rfl
  · have h1 : decide (-r - 1 ≥ 0) = true := by simp only [decide_eq_true_eq]; omega
    have h2 : decide (r ≥ 0) = false := by simp only [decide_eq_false_iff_not]; omega
    rw [h1, h2]
    rfl

/-!  ### Singleton-domain lemmas -/

/-- Membership in a singleton domain. -/
theorem Domain.contains_single (v w : Int) :
    (Domain.single v).Contains w = (w == v) := by
  rw [Bool.eq_iff_iff]
  simp [Domain.single, Domain.Contains]
  omega

/-- A well-formed domain included in a singleton contains only that value. -/
theorem Domain.wf_includedIn_single {d : Domain} {v : Int} (hwf : d.wf)
    (hinc : d.IsIncludedIn (Domain.single v) = true) :
    ∀ p ∈ d.intervals, p = (v, v) := by
  intro p hp
  obtain ⟨p1, p2⟩ := p
  simp only [Domain.IsIncludedIn, Domain.single, List.all_eq_true] at hinc
  have h := hinc _ hp
  simp at h
  have hv := hwf _ hp
  simp only [Prod.mk.injEq]
  constructor <;> omega

/-!  ### C9: `SetLiteralToTrue` / `SetLiteralToFalse` as domain intersections -/


/-- The behaviour of `IntersectDomainWith` on a positive reference and a
singleton domain `{v}` (the combination used by `SetLiteralToFalse` /
`SetLiteralToTrue`): the call returns true exactly when `v` is in the current
(well-formed, non-empty) domain, `is_unsat` is set exactly on failure, and on
success the stored domain afterwards contains exactly the value `v`. -/
theorem intersect_single_spec (ctx : PresolveContext) (var v : Int)
    (hpos : RefIsPositive var = true)
    (hwf : (ctx.domOf var).wf)
    (hne : (ctx.domOf var).IsEmpty = false) :
    ((ctx.IntersectDomainWith var (Domain.single v) none).1 =
       (ctx.domOf var).Contains v) ∧
    ((ctx.IntersectDomainWith var (Domain.single v) none).2.1.is_unsat =
       (ctx.is_unsat || !(ctx.domOf var).Contains v)) ∧
    ((ctx.domOf var).Contains v = true →
      ∀ w, ((ctx.IntersectDomainWith var (Domain.single v) none).2.1.domOf var).Contains w =
        (w == v)) := by
  have hdom : ctx.domains.getD (refVar var) ⟨[]⟩ = ctx.domOf var := rfl
  have hlt : refVar var < ctx.domains.length := by
    by_contra hcon
    push_neg at hcon
    have hz : ctx.domains.getD (refVar var) ⟨[]⟩ = ⟨[]⟩ := by
      rw [List.getD_eq_getElem?_getD, List.getElem?_eq_none (by omega)]
      rfl
    rw [hdom] at hz
    rw [hz] at hne
    simp [Domain.IsEmpty] at hne
  by_cases hinc : (ctx.domOf var).IsIncludedIn (Domain.single v) = true
  · -- already included: no-op, and the domain is already exactly {v}
    have hall := Domain.wf_includedIn_single hwf hinc
    obtain ⟨p, hp⟩ : ∃ p, p ∈ (ctx.domOf var).intervals := by
      cases h : (ctx.domOf var).intervals with
      | nil => simp [Domain.IsEmpty, h] at hne
      | cons a l => exact ⟨a, by simp [h]⟩
    have hcont : (ctx.domOf var).Contains v = true := by
      simp only [Domain.Contains, List.any_eq_true]
      refine ⟨p, hp, ?_⟩
      have := hall p hp
      subst this
      simp
    have heq : ctx.IntersectDomainWith var (Domain.single v) none = (true, ctx, none) := by
      simp only [PresolveContext.IntersectDomainWith, hpos, if_true, hdom, hinc]
    rw [heq, hcont]
    refine ⟨rfl, by simp, ?_⟩
    intro _ w
    rw [Bool.eq_iff_iff]
    simp only [Domain.Contains, List.any_eq_true, beq_iff_eq]
    constructor
    · rintro ⟨q, hq, hw⟩
      have := hall q hq
      subst this
      simp at hw
      omega
    · rintro rfl
      exact ⟨p, hp, by have := hall p hp; subst this; simp⟩
  · -- not included: the domain becomes the intersection with {v}
    rw [Bool.not_eq_true] at hinc
    have heq := (c1_intersect_domain ctx var (Domain.single v) none _ _ _ rfl rfl rfl).2
    rw [hpos] at heq
    simp only [if_true] at heq
    have h2 := heq (by rw [hdom]; exact hinc)
    obtain ⟨hmem, hres⟩ := h2
    rw [hdom] at hmem hres
    have hie : ((ctx.domOf var).IntersectionWith (Domain.single v)).IsEmpty =
        !(ctx.domOf var).Contains v := by
      cases hcv : (ctx.domOf var).Contains v with
      | true =>
        simp only [Bool.not_true]
        simp only [Domain.Contains, List.any_eq_true, Bool.and_eq_true,
          decide_eq_true_eq] at hcv
        obtain ⟨p, hp, hp1, hp2⟩ := hcv
        have hx : (max p.1 v, min p.2 v) ∈
            ((ctx.domOf var).IntersectionWith (Domain.single v)).intervals := by
          simp only [Domain.IntersectionWith, Domain.single, List.mem_flatMap,
            List.mem_filterMap]
          refine ⟨p, hp, (v, v), List.mem_singleton_self _, ?_⟩
          rw [if_pos]
          omega
        simp only [Domain.IsEmpty]
        rw [List.isEmpty_eq_false_iff_exists_mem]
        exact ⟨_, hx⟩
      | false =>
        simp only [Bool.not_false]
        simp only [Domain.IsEmpty, List.isEmpty_iff]
        rw [List.eq_nil_iff_forall_not_mem]
        intro x hx
        simp only [Domain.IntersectionWith, Domain.single, List.mem_flatMap,
          List.mem_filterMap] at hx
        obtain ⟨p, hp, y, hy, hxx⟩ := hx
        simp only [List.mem_singleton] at hy
        subst hy
        split_ifs at hxx with hord
        · have : (ctx.domOf var).Contains v = true := by
            simp only [Domain.Contains, List.any_eq_true, Bool.and_eq_true,
              decide_eq_true_eq]
            refine ⟨p, hp, by omega, by omega⟩
          rw [this] at hcv
          cases hcv
    have hdomof : ((ctx.IntersectDomainWith var (Domain.single v) none).2.1.domOf var) =
        (ctx.domOf var).IntersectionWith (Domain.single v) := by
      rw [hres]
      simp only [PresolveContext.domOf, List.getD_eq_getElem?_getD]
      rw [List.getElem?_set_self hlt]
      rfl
    refine ⟨?_, ?_, ?_⟩
    · rw [hres]
      simp only [hie, Bool.not_not]
    · rw [hres]
      simp only [hie]
    · intro hcont w
      rw [hdomof, Domain.contains_intersectionWith, Domain.contains_single]
      by_cases hw : w = v
      · subst hw
        simp [hcont]
      · simp [hw]

/-- The positive form of a reference is positive. -/
theorem refIsPositive_positiveRef (r : Int) : RefIsPositive (PositiveRef r) = true := by
  rw [PositiveRef]
  by_cases h : RefIsPositive r = true
  · rw [if_pos h]
    exact h
  · rw [if_neg h]
    simp only [RefIsPositive, NegatedRef, decide_eq_true_eq] at *
    omega

/-- Taking the positive form is idempotent. -/
theorem positiveRef_idem (r : Int) : PositiveRef (PositiveRef r) = PositiveRef r := by
  conv_lhs => rw [PositiveRef]
  rw [if_pos (refIsPositive_positiveRef r)]

/-- `refVar` is invariant under taking the positive form. -/
theorem refVar_positiveRef (r : Int) : refVar (PositiveRef r) = refVar r := by
  simp only [refVar, positiveRef_idem]

/-- The stored domain of a reference equals that of its positive form. -/
theorem domOf_positiveRef (ctx : PresolveContext) (r : Int) :
    ctx.domOf (PositiveRef r) = ctx.domOf r := by
  simp only [PresolveContext.domOf, refVar_positiveRef]

/-!  ### C9: `SetLiteralToTrue` / `SetLiteralToFalse` -/

/-- C9.  For every reference `r` (no precondition that `r` is usable as a
literal, only that its stored domain is well-formed and non-empty):
`set_literal_true(r)` is observably identical to
`intersect_domain(positive(r), {1})` when `r` is positive and
`intersect_domain(positive(r), {0})` when `r` is negated, and symmetrically
for `set_literal_false`; on any variable it narrows the domain to that single
target value, and it returns false with `is_unsat` set exactly when the
target value (`1` in the signed literal view, i.e. `1` resp. `0` on the
underlying variable) is not in the signed domain of `r`. -/
theorem c9_set_literal (ctx : PresolveContext) (r : Int)
    (hwf : (ctx.domOf r).wf)
    (hne : (ctx.domOf r).IsEmpty = false) :
    (ctx.SetLiteralToTrue r =
      ((ctx.IntersectDomainWith (PositiveRef r)
          (Domain.single (if RefIsPositive r then 1 else 0)) none).1,
       (ctx.IntersectDomainWith (PositiveRef r)
          (Domain.single (if RefIsPositive r then 1 else 0)) none).2.1)) ∧
    ((ctx.SetLiteralToTrue r).1 =
      (ctx.domOf r).Contains (if RefIsPositive r then 1 else 0)) ∧
    ((ctx.SetLiteralToTrue r).2.is_unsat =
      (ctx.is_unsat || !(ctx.domOf r).Contains (if RefIsPositive r then 1 else 0))) ∧
    ((ctx.domOf r).Contains (if RefIsPositive r then 1 else 0) = true →
      ∀ w, ((ctx.SetLiteralToTrue r).2.domOf r).Contains w =
        (w == (if RefIsPositive r then (1 : Int) else 0))) ∧
    (ctx.SetLiteralToFalse r =
      ((ctx.IntersectDomainWith (PositiveRef r)
          (Domain.single (if RefIsPositive r then 0 else 1)) none).1,
       (ctx.IntersectDomainWith (PositiveRef r)
          (Domain.single (if RefIsPositive r then 0 else 1)) none).2.1)) ∧
    ((ctx.SetLiteralToFalse r).1 =
      (ctx.domOf r).Contains (if RefIsPositive r then 0 else 1)) ∧
    ((ctx.SetLiteralToFalse r).2.is_unsat =
      (ctx.is_unsat || !(ctx.domOf r).Contains (if RefIsPositive r then 0 else 1))) ∧
    ((ctx.domOf r).Contains (if RefIsPositive r then 0 else 1) = true →
      ∀ w, ((ctx.SetLiteralToFalse r).2.domOf r).Contains w =
        (w == (if RefIsPositive r then (0 : Int) else 1))) := by
  have hwf' : (ctx.domOf (PositiveRef r)).wf := by rw [domOf_positiveRef]; exact hwf
  have hne' : (ctx.domOf (PositiveRef r)).IsEmpty = false := by
    rw [domOf_positiveRef]; exact hne
  have htrue : ctx.SetLiteralToTrue r =
      ((ctx.IntersectDomainWith (PositiveRef r)
          (Domain.single (if RefIsPositive r then 1 else 0)) none).1,
       (ctx.IntersectDomainWith (PositiveRef r)
          (Domain.single (if RefIsPositive r then 1 else 0)) none).2.1) := by
    simp only [PresolveContext.SetLiteralToTrue, PresolveContext.SetLiteralToFalse,
      positiveRef_negatedRef, refIsPositive_negatedRef]
    cases hp : RefIsPositive r <;> simp
  have hfalse : ctx.SetLiteralToFalse r =
      ((ctx.IntersectDomainWith (PositiveRef r)
          (Domain.single (if RefIsPositive r then 0 else 1)) none).1,
       (ctx.IntersectDomainWith (PositiveRef r)
          (Domain.single (if RefIsPositive r then 0 else 1)) none).2.1) := by
    simp only [PresolveContext.SetLiteralToFalse]
  have hspec1 := intersect_single_spec ctx (PositiveRef r)
    (if RefIsPositive r then 1 else 0) (refIsPositive_positiveRef r) hwf' hne'
  have hspec0 := intersect_single_spec ctx (PositiveRef r)
    (if RefIsPositive r then 0 else 1) (refIsPositive_positiveRef r) hwf' hne'
  rw [domOf_positiveRef] at hspec1 hspec0
  refine ⟨htrue, ?_, ?_, ?_, hfalse, ?_, ?_, ?_⟩
  · rw [htrue]
    exact hspec1.1
  · rw [htrue]
    exact hspec1.2.1
  · intro hc w
    rw [htrue]
    have h3 := hspec1.2.2 hc w
    rw [domOf_positiveRef] at h3
    exact h3
  · rw [hfalse]
    exact hspec0.1
  · rw [hfalse]
    exact hspec0.2.1
  · intro hc w
    rw [hfalse]
    have h3 := hspec0.2.2 hc w
    rw [domOf_positiveRef] at h3
    exact h3

/-- Witness for C9 on a non-Boolean variable `x ∈ {0,…,4}`:
`set_literal_true(x)` narrows the domain to `{1}` and succeeds, and
`set_literal_true(¬x)` (the negated reference `-1`) narrows it to `{0}`. -/
theorem c9_set_literal_witness :
    (((initialContext.NewIntVar (Domain.interval 0 4)).2).SetLiteralToTrue 0).1 = true ∧
    ((((initialContext.NewIntVar (Domain.interval 0 4)).2).SetLiteralToTrue 0).2.domOf
      0).Contains 1 = true ∧
    ((((initialContext.NewIntVar (Domain.interval 0 4)).2).SetLiteralToTrue 0).2.domOf
      0).Contains 3 = false ∧
    (((initialContext.NewIntVar (Domain.interval 0 4)).2).SetLiteralToTrue (-1)).1 = true := by
  have hctx := (initialContext.NewIntVar (Domain.interval 0 4)).2
  have h := c9_set_literal ((initialContext.NewIntVar (Domain.interval 0 4)).2) 0
    (by decide) (by decide)
  have hnarrow := h.2.2.2.1 (by decide)
  refine ⟨?_, ?_, ?_, ?_⟩
  · rw [h.2.1]
    decide
  · rw [hnarrow 1]
    decide
  · rw [hnarrow 3]
    decide
  · have h2 := c9_set_literal ((initialContext.NewIntVar (Domain.interval 0 4)).2) (-1)
      (by decide) (by decide)
    rw [h2.2.1]
    decide

/-!  ### C4: fixing one side of a stored Boolean equality -/

/-- Counterexample to C4.  On two fresh Boolean variables `a = 0`, `b = 1`,
after `store_boolean_equality(a, b)` and `set_literal_true(a)` the query
`literal_is_true(b)` returns false (not true as claimed): the context records
the equality as a linear constraint and an affine relation but does not
propagate domains, so `b`'s domain is still `{0,1}`. -/
theorem c4_counterexample :
    boolPairCtx.CanBeUsedAsLiteral 0 = true ∧
    boolPairCtx.CanBeUsedAsLiteral 1 = true ∧
    c4State.LiteralIsTrue 1 = false := by
  refine ⟨by decide, by decide, by decide⟩

/-- C4 as amended: after `store_boolean_equality(a, b)` and
`set_literal_true(a)`, `literal_is_true(a)` holds but `literal_is_true(b)`
does not — `b`'s stored domain is unchanged (`{0,1}`); the equality is
recorded through the appended linear constraint and the affine relation
(`b`'s literal representative is `a`), and domain propagation is left to the
presolve rules that process that constraint. -/
theorem c4_amended :
    c4State.LiteralIsTrue 0 = true ∧
    c4State.LiteralIsTrue 1 = false ∧
    c4State.domOf 1 = ⟨[(0, 1)]⟩ ∧
    c4State.domOf 0 = ⟨[(1, 1)]⟩ ∧
    c4State.GetLiteralRepresentative 1 = 0 ∧
    c4State.working_model.constraints =
      [⟨[], some ⟨[0, 1], [1, -1], [0, 0]⟩⟩] := by
  refine ⟨by decide, by decide, by decide, by decide, by decide, by decide⟩

/-!  ### C5: the `DCHECK_NE(positive_possible, negative_possible)` assertion -/

/-- Counterexample to C5.  `StoreAffineRelation` can record the relation
`x₀ = x₁ + 5` between two fresh Boolean variables; for the resulting
relation of `x₁` (representative `x₀`, coeff 1, offset −5) both
`positive_possible` and `negative_possible` are false, although `x₁` and the
representative are both usable as literals — so "exactly one holds" fails
and the `DCHECK` would fire. -/
theorem c5_counterexample :
    c5State.CanBeUsedAsLiteral 1 = true ∧
    c5State.CanBeUsedAsLiteral ((c5State.GetAffineRelation 1).representative : Int) = true ∧
    (c5State.GetAffineRelation 1).coeff ≠ 0 ∧
    positivePossible (c5State.GetAffineRelation 1).coeff
      (c5State.GetAffineRelation 1).offset = false ∧
    negativePossible (c5State.GetAffineRelation 1).coeff
      (c5State.GetAffineRelation 1).offset = false := by
  refine ⟨by decide, by decide, by decide, by decide, by decide⟩

/-- C5 as amended: with `c = coeff` and `o = offset` of the affine relation
of a literal-usable reference whose representative is also literal-usable,
`positive_possible` and `negative_possible` are never both true when
`c ≠ 0`; and under the additional hypothesis that the relation maps at least
one Boolean value consistently (`o ∈ {0,1}` or `c + o ∈ {0,1}`) exactly one
of the two holds, validating the assertion in that case. -/
theorem c5_amended (ctx : PresolveContext) (ref : Int)
    (hlit : ctx.CanBeUsedAsLiteral ref = true)
    (hrep : ctx.CanBeUsedAsLiteral
      ((ctx.GetAffineRelation (PositiveRef ref)).representative : Int) = true)
    (hc : (ctx.GetAffineRelation (PositiveRef ref)).coeff ≠ 0) :
    (¬(positivePossible (ctx.GetAffineRelation (PositiveRef ref)).coeff
         (ctx.GetAffineRelation (PositiveRef ref)).offset = true ∧
       negativePossible (ctx.GetAffineRelation (PositiveRef ref)).coeff
         (ctx.GetAffineRelation (PositiveRef ref)).offset = true)) ∧
    (((ctx.GetAffineRelation (PositiveRef ref)).offset = 0 ∨
      (ctx.GetAffineRelation (PositiveRef ref)).offset = 1 ∨
      (ctx.GetAffineRelation (PositiveRef ref)).coeff +
        (ctx.GetAffineRelation (PositiveRef ref)).offset = 0 ∨
      (ctx.GetAffineRelation (PositiveRef ref)).coeff +
        (ctx.GetAffineRelation (PositiveRef ref)).offset = 1) →
      positivePossible (ctx.GetAffineRelation (PositiveRef ref)).coeff
        (ctx.GetAffineRelation (PositiveRef ref)).offset ≠
      negativePossible (ctx.GetAffineRelation (PositiveRef ref)).coeff
        (ctx.GetAffineRelation (PositiveRef ref)).offset) := by
  set c := (ctx.GetAffineRelation (PositiveRef ref)).coeff with hcdef
  set o := (ctx.GetAffineRelation (PositiveRef ref)).offset with hodef
  constructor
  · rintro ⟨hpp, hnp⟩
    simp only [positivePossible, negativePossible, Bool.or_eq_true, beq_iff_eq] at hpp hnp
    rcases hpp with h1 | h1 <;> rcases hnp with h2 | h2 <;> omega
  · intro hcase
    simp only [positivePossible, negativePossible, ne_eq]
    intro hcontra
    rw [Bool.eq_iff_iff] at hcontra
    simp only [Bool.or_eq_true, beq_iff_eq] at hcontra
    rcases hcontra with ⟨hf, hb⟩
    by_cases h1 : o = 0 ∨ c + o = 1
    · rcases h1 with h1 | h1 <;> rcases hf (by omega) with h2 | h2 <;> omega
    · have h2 : ¬(o = 1 ∨ c + o = 0) := fun hx => h1 (hb hx)
      push_neg at h1 h2
      rcases hcase with h | h | h | h <;> omega

/-- Witness for C5 (amended) at the state of the C4 scenario: `x₁`'s
relation there is `(representative 0, coeff 1, offset 0)`, which maps
Boolean values consistently, and indeed exactly one polarity is possible. -/
theorem c5_amended_witness :
    positivePossible (c8Once.GetAffineRelation (PositiveRef 1)).coeff
      (c8Once.GetAffineRelation (PositiveRef 1)).offset ≠
    negativePossible (c8Once.GetAffineRelation (PositiveRef 1)).coeff
      (c8Once.GetAffineRelation (PositiveRef 1)).offset := by
  exact (c5_amended c8Once 1 (by decide) (by decide) (by decide)).2
    (by decide)

/-!  ### C8: `StoreBooleanEqualityRelation` -/

set_option maxHeartbeats 1000000 in
/-- `StoreAffineRelation` never changes the working model (it only updates
the two union-finds, `modified_domains` and `affine_constraints`). -/
theorem storeAffineRelation_working_model (ctx : PresolveContext) (ct : Nat)
    (ref_x ref_y coeff offset : Int) :
    (ctx.StoreAffineRelation ct ref_x ref_y coeff offset).working_model =
      ctx.working_model := by
  simp only [PresolveContext.StoreAffineRelation]
  split_ifs <;> rfl

set_option maxHeartbeats 1000000 in
/-- `StoreAffineRelation` never changes the domain store. -/
theorem storeAffineRelation_domains (ctx : PresolveContext) (ct : Nat)
    (ref_x ref_y coeff offset : Int) :
    (ctx.StoreAffineRelation ct ref_x ref_y coeff offset).domains = ctx.domains := by
  simp only [PresolveContext.StoreAffineRelation]
  split_ifs <;> rfl

set_option maxHeartbeats 1000000 in
/-- `StoreAffineRelation` never changes `is_unsat`. -/
theorem storeAffineRelation_is_unsat (ctx : PresolveContext) (ct : Nat)
    (ref_x ref_y coeff offset : Int) :
    (ctx.StoreAffineRelation ct ref_x ref_y coeff offset).is_unsat = ctx.is_unsat := by
  simp only [PresolveContext.StoreAffineRelation]
  split_ifs <;> rfl

set_option maxHeartbeats 2000000 in
/-- Counterexample to C8.  Calling `store_boolean_equality(a, b)` twice on
two fresh Booleans: the second call has `a ≠ b` and `a ≠ negated(b)`, yet it
appends no constraint and changes nothing at all (the claim's "otherwise"
branch is missing the early return taken when one side's affine
representative already equals the other variable). -/
theorem c8_counterexample :
    (0 : Int) ≠ 1 ∧ (0 : Int) ≠ NegatedRef 1 ∧
    c8Once.CanBeUsedAsLiteral 0 = true ∧ c8Once.CanBeUsedAsLiteral 1 = true ∧
    c8Twice = c8Once ∧
    c8Once.working_model.constraints.length = 1 := by
  refine ⟨by decide, by decide, by decide, by decide, by decide, by decide⟩

/-- C8 as amended: `store_boolean_equality(a, a)` is a no-op;
`store_boolean_equality(a, negated(a))` sets `is_unsat` and changes nothing
else; when one variable's affine representative already equals the other
variable the call is also a complete no-op; otherwise it appends the
two-variable linear constraint (`a − b ∈ {0}` for equal polarities,
`a + b ∈ {1}` otherwise) — leaving every domain and `is_unsat` unchanged —
and hands the corresponding relation to `store_affine_relation`
(which itself skips the store when a side is fixed or the model unsat). -/
theorem c8_amended (ctx : PresolveContext) (ref_a ref_b : Int) :
    (ref_a = ref_b → ctx.StoreBooleanEqualityRelation ref_a ref_b = ctx) ∧
    (ref_a ≠ ref_b → ref_a = NegatedRef ref_b →
      ctx.StoreBooleanEqualityRelation ref_a ref_b = { ctx with is_unsat := true }) ∧
    (ref_a ≠ ref_b → ref_a ≠ NegatedRef ref_b →
      ((ctx.GetAffineRelation ((refVar ref_a : Nat) : Int)).representative = refVar ref_b ∨
       (ctx.GetAffineRelation ((refVar ref_b : Nat) : Int)).representative = refVar ref_a) →
      ctx.StoreBooleanEqualityRelation ref_a ref_b = ctx) ∧
    (ref_a ≠ ref_b → ref_a ≠ NegatedRef ref_b →
      ¬((ctx.GetAffineRelation ((refVar ref_a : Nat) : Int)).representative = refVar ref_b ∨
        (ctx.GetAffineRelation ((refVar ref_b : Nat) : Int)).representative = refVar ref_a) →
      (ctx.StoreBooleanEqualityRelation ref_a ref_b).working_model.constraints =
        ctx.working_model.constraints ++
          [⟨[], some (if RefIsPositive ref_a == RefIsPositive ref_b then
              ⟨[(refVar ref_a : Int), (refVar ref_b : Int)], [1, -1], [0, 0]⟩
            else
              ⟨[(refVar ref_a : Int), (refVar ref_b : Int)], [1, 1], [1, 1]⟩)⟩] ∧
      (ctx.StoreBooleanEqualityRelation ref_a ref_b).domains = ctx.domains ∧
      (ctx.StoreBooleanEqualityRelation ref_a ref_b).is_unsat = ctx.is_unsat ∧
      ctx.StoreBooleanEqualityRelation ref_a ref_b =
        (if RefIsPositive ref_a == RefIsPositive ref_b then
          ({ ctx with working_model := { ctx.working_model with
              constraints := ctx.working_model.constraints ++
                [⟨[], some ⟨[(refVar ref_a : Int), (refVar ref_b : Int)], [1, -1], [0, 0]⟩⟩] } }
            : PresolveContext).StoreAffineRelation
              ctx.working_model.constraints.length
              ((refVar ref_a : Nat) : Int) ((refVar ref_b : Nat) : Int) 1 0
        else
          ({ ctx with working_model := { ctx.working_model with
              constraints := ctx.working_model.constraints ++
                [⟨[], some ⟨[(refVar ref_a : Int), (refVar ref_b : Int)], [1, 1], [1, 1]⟩⟩] } }
            : PresolveContext).StoreAffineRelation
              ctx.working_model.constraints.length
              ((refVar ref_a : Nat) : Int) ((refVar ref_b : Nat) : Int) (-1) 1)) := by
  refine ⟨?_, ?_, ?_, ?_⟩
  · intro h
    simp only [PresolveContext.StoreBooleanEqualityRelation, h, if_true]
  · intro h1 h2
    simp only [PresolveContext.StoreBooleanEqualityRelation, if_neg h1, if_pos h2]
  · intro h1 h2 h3
    simp only [PresolveContext.StoreBooleanEqualityRelation, if_neg h1, if_neg h2, if_pos h3]
  · intro h1 h2 h3
    have hmain : ctx.StoreBooleanEqualityRelation ref_a ref_b =
        (if RefIsPositive ref_a == RefIsPositive ref_b then
          ({ ctx with working_model := { ctx.working_model with
              constraints := ctx.working_model.constraints ++
                [⟨[], some ⟨[(refVar ref_a : Int), (refVar ref_b : Int)], [1, -1], [0, 0]⟩⟩] } }
            : PresolveContext).StoreAffineRelation
              ctx.working_model.constraints.length
              ((refVar ref_a : Nat) : Int) ((refVar ref_b : Nat) : Int) 1 0
        else
          ({ ctx with working_model := { ctx.working_model with
              constraints := ctx.working_model.constraints ++
                [⟨[], some ⟨[(refVar ref_a : Int), (refVar ref_b : Int)], [1, 1], [1, 1]⟩⟩] } }
            : PresolveContext).StoreAffineRelation
              ctx.working_model.constraints.length
              ((refVar ref_a : Nat) : Int) ((refVar ref_b : Nat) : Int) (-1) 1) := by
      simp only [PresolveContext.StoreBooleanEqualityRelation, if_neg h1, if_neg h2,
        if_neg h3]
      split_ifs with hpol
      · rfl
      · rfl
    refine ⟨?_, ?_, ?_, hmain⟩
    · rw [hmain]
      split_ifs with hpol
      · rw [storeAffineRelation_working_model]
      · rw [storeAffineRelation_working_model]
    · rw [hmain]
      split_ifs with hpol
      · rw [storeAffineRelation_domains]
      · rw [storeAffineRelation_domains]
    · rw [hmain]
      split_ifs with hpol
      · rw [storeAffineRelation_is_unsat]
      · rw [storeAffineRelation_is_unsat]

/-- Witness for C8 (amended): on the two fresh Booleans the first call takes
the "otherwise" branch and appends exactly the `a − b ∈ {0}` constraint. -/
theorem c8_amended_witness :
    c8Once.working_model.constraints =
      [⟨[], some ⟨[0, 1], [1, -1], [0, 0]⟩⟩] ∧
    c8Once.domains = boolPairCtx.domains ∧
    c8Once.is_unsat = false := by
  have h := (c8_amended boolPairCtx 0 1).2.2.2 (by decide) (by decide) (by decide)
  have hc : c8Once = boolPairCtx.StoreBooleanEqualityRelation 0 1 := rfl
  rw [hc]
  refine ⟨?_, h.2.1, ?_⟩
  · rw [h.1]
    decide
  · rw [h.2.2.1]
    decide

/-!  ### C2: the domain-store invariant -/

/-- The resize block changes neither `domains`, the working model, nor
`is_unsat`. -/
theorem resizeVarStructures_fields (ctx : PresolveContext) :
    (ctx.resizeVarStructures).domains = ctx.domains ∧
    (ctx.resizeVarStructures).working_model = ctx.working_model ∧
    (ctx.resizeVarStructures).is_unsat = ctx.is_unsat :=
  ⟨rfl, rfl, rfl⟩

/-- `ExploitFixedDomain` changes neither `domains`, the working model, nor
`is_unsat` (it only touches `constant_to_ref` and the two union-finds). -/
theorem exploitFixedDomain_fields (ctx : PresolveContext) (v : Nat) :
    (ctx.ExploitFixedDomain v).domains = ctx.domains ∧
    (ctx.ExploitFixedDomain v).working_model = ctx.working_model ∧
    (ctx.ExploitFixedDomain v).is_unsat = ctx.is_unsat := by
  simp only [PresolveContext.ExploitFixedDomain]
  cases h : alookup ctx.constant_to_ref (ctx.MinOf (v : Int)) with
  | none => exact ⟨rfl, rfl, rfl⟩
  | some rep =>
    dsimp only
    by_cases hr : rep ≠ v
    · rw [if_pos hr]
      exact ⟨rfl, rfl, rfl⟩
    · rw [if_neg hr]
      exact ⟨rfl, rfl, rfl⟩

/-- `is_unsat` is sticky across the `InitializeNewDomains` loop. -/
theorem initDomLoop_unsat : ∀ (pending : List IntegerVariableProto)
    (ctx : PresolveContext), ctx.is_unsat = true →
    (initDomLoop ctx pending).is_unsat = true := by
  intro pending
  induction pending with
  | nil =>
    intro ctx h
    rw [initDomLoop, (resizeVarStructures_fields ctx).2.2]
    exact h
  | cons vp rest ih =>
    intro ctx h
    rw [initDomLoop]
    dsimp only
    split_ifs with he hf
    · rfl
    · exact ih _ (by rw [(exploitFixedDomain_fields _ _).2.2]; exact h)
    · exact ih _ h

/-- The `InitializeNewDomains` loop invariant: starting from an all-non-empty
domain store, it either proves the model infeasible or mirrors every pending
variable proto with a non-empty domain (leaving the working model and the
`is_unsat` flag as they were). -/
theorem initDomLoop_inv : ∀ (pending : List IntegerVariableProto)
    (ctx : PresolveContext), (∀ d ∈ ctx.domains, d.IsEmpty = false) →
    (initDomLoop ctx pending).is_unsat = true ∨
    ((∀ d ∈ (initDomLoop ctx pending).domains, d.IsEmpty = false) ∧
     (initDomLoop ctx pending).domains.length = ctx.domains.length + pending.length ∧
     (initDomLoop ctx pending).working_model = ctx.working_model ∧
     (initDomLoop ctx pending).is_unsat = ctx.is_unsat) := by
  intro pending
  induction pending with
  | nil =>
    intro ctx h
    right
    rw [initDomLoop]
    refine ⟨?_, ?_, (resizeVarStructures_fields ctx).2.1,
      (resizeVarStructures_fields ctx).2.2⟩
    · rw [(resizeVarStructures_fields ctx).1]
      exact h
    · rw [(resizeVarStructures_fields ctx).1]
      rfl
  | cons vp rest ih =>
    intro ctx h
    rw [initDomLoop]
    dsimp only
    split_ifs with he hf
    · left
      rfl
    · -- the new domain is non-empty and fixed: exploit, then recurse
      rw [Bool.not_eq_true] at he
      set c1 : PresolveContext :=
        { ctx with domains := ctx.domains ++ [ReadDomainFromProto vp.domain] } with hc1
      set c2 : PresolveContext := c1.ExploitFixedDomain
        ((ctx.domains ++ [ReadDomainFromProto vp.domain]).length - 1) with hc2
      have hc1d : c1.domains = ctx.domains ++ [ReadDomainFromProto vp.domain] := rfl
      have hc1w : c1.working_model = ctx.working_model := rfl
      have hc1u : c1.is_unsat = ctx.is_unsat := rfl
      have hall1 : ∀ d ∈ c1.domains, d.IsEmpty = false := by
        rw [hc1d]
        intro d hd
        rcases List.mem_append.mp hd with hd | hd
        · exact h d hd
        · rw [List.mem_singleton] at hd
          rw [hd]
          exact he
      have hef := exploitFixedDomain_fields c1
        ((ctx.domains ++ [ReadDomainFromProto vp.domain]).length - 1)
      rw [← hc2] at hef
      have hall2 : ∀ d ∈ c2.domains, d.IsEmpty = false := by
        rw [hef.1]
        exact hall1
      rcases ih c2 hall2 with hu | ⟨h1, h2, h3, h4⟩
      · exact Or.inl hu
      · right
        refine ⟨h1, ?_, ?_, ?_⟩
        · rw [h2]
          have e1 : c2.domains.length = ctx.domains.length + 1 := by
            rw [hef.1, hc1d]
            simp
          rw [e1, List.length_cons]
          omega
        · rw [h3, hef.2.1, hc1w]
        · rw [h4, hef.2.2, hc1u]
    · -- non-empty, not fixed: recurse directly
      rw [Bool.not_eq_true] at he
      set c1 : PresolveContext :=
        { ctx with domains := ctx.domains ++ [ReadDomainFromProto vp.domain] } with hc1
      have hc1d : c1.domains = ctx.domains ++ [ReadDomainFromProto vp.domain] := rfl
      have hc1w : c1.working_model = ctx.working_model := rfl
      have hc1u : c1.is_unsat = ctx.is_unsat := rfl
      have hall1 : ∀ d ∈ c1.domains, d.IsEmpty = false := by
        rw [hc1d]
        intro d hd
        rcases List.mem_append.mp hd with hd | hd
        · exact h d hd
        · rw [List.mem_singleton] at hd
          rw [hd]
          exact he
      rcases ih c1 hall1 with hu | ⟨h1, h2, h3, h4⟩
      · exact Or.inl hu
      · right
        refine ⟨h1, ?_, ?_, ?_⟩
        · rw [h2]
          have e1 : c1.domains.length = ctx.domains.length + 1 := by
            rw [hc1d]
            simp
          rw [e1, List.length_cons]
          omega
        · rw [h3, hc1w]
        · rw [h4, hc1u]

/-- `InitializeNewDomains` establishes the domain-store invariant whenever
the current store is sound and not ahead of the variable list. -/
theorem initializeNewDomains_dominv (ctx : PresolveContext)
    (hall : ∀ d ∈ ctx.domains, d.IsEmpty = false)
    (hle : ctx.domains.length ≤ ctx.working_model.variables_.length) :
    DomInvariant ctx.InitializeNewDomains := by
  rw [PresolveContext.InitializeNewDomains]
  rcases initDomLoop_inv (ctx.working_model.variables_.drop ctx.domains.length) ctx hall
    with hu | ⟨h1, h2, h3, h4⟩
  · exact Or.inl hu
  · right
    refine ⟨h1, ?_⟩
    rw [h2, h3, List.length_drop]
    omega

/-- `is_unsat` is sticky across every context operation of `CtxOp`. -/
theorem applyOp_unsat (ctx : PresolveContext) (op : CtxOp)
    (h : ctx.is_unsat = true) : (applyOp ctx op).is_unsat = true := by
  cases op with
  | newVar d =>
    exact initDomLoop_unsat _ _ h
  | newBool =>
    exact initDomLoop_unsat _ _ h
  | constVar k =>
    simp only [applyOp, PresolveContext.GetOrCreateConstantVar]
    split_ifs with hk
    · exact h
    · exact initDomLoop_unsat _ _ h
  | intersect ref d =>
    simp only [applyOp]
    rcases c1_intersect_domain ctx ref d none _ _ _ rfl rfl rfl with ⟨hinc, hninc⟩
    by_cases hi : (ctx.domains.getD (refVar ref) ⟨[]⟩).IsIncludedIn
        (if RefIsPositive ref then d else d.Negation) = true
    · rw [hinc hi]
      exact h
    · rw [Bool.not_eq_true] at hi
      rw [(hninc hi).2]
      simp [h]
  | setTrue lit =>
    simp only [applyOp, PresolveContext.SetLiteralToTrue, PresolveContext.SetLiteralToFalse]
    rcases c1_intersect_domain ctx (PositiveRef (NegatedRef lit))
        (Domain.single (if RefIsPositive (NegatedRef lit) then 0 else 1)) none _ _ _
        rfl rfl rfl with ⟨hinc, hninc⟩
    by_cases hi : (ctx.domains.getD (refVar (PositiveRef (NegatedRef lit))) ⟨[]⟩).IsIncludedIn
        (if RefIsPositive (PositiveRef (NegatedRef lit)) then
          Domain.single (if RefIsPositive (NegatedRef lit) then 0 else 1)
        else (Domain.single (if RefIsPositive (NegatedRef lit) then 0 else 1)).Negation) = true
    · rw [hinc hi]
      exact h
    · rw [Bool.not_eq_true] at hi
      rw [(hninc hi).2]
      simp [h]
  | setFalse lit =>
    simp only [applyOp, PresolveContext.SetLiteralToFalse]
    rcases c1_intersect_domain ctx (PositiveRef lit)
        (Domain.single (if RefIsPositive lit then 0 else 1)) none _ _ _
        rfl rfl rfl with ⟨hinc, hninc⟩
    by_cases hi : (ctx.domains.getD (refVar (PositiveRef lit)) ⟨[]⟩).IsIncludedIn
        (if RefIsPositive (PositiveRef lit) then
          Domain.single (if RefIsPositive lit then 0 else 1)
        else (Domain.single (if RefIsPositive lit then 0 else 1)).Negation) = true
    · rw [hinc hi]
      exact h
    · rw [Bool.not_eq_true] at hi
      rw [(hninc hi).2]
      simp [h]

/-- `IntersectDomainWith` preserves the domain-store invariant. -/
theorem intersect_dominv (ctx : PresolveContext) (ref : Int) (dom : Domain)
    (dm : Option Bool) (h : DomInvariant ctx) :
    DomInvariant (ctx.IntersectDomainWith ref dom dm).2.1 := by
  rcases c1_intersect_domain ctx ref dom dm _ _ _ rfl rfl rfl with ⟨hinc, hninc⟩
  by_cases hi : (ctx.domains.getD (refVar ref) ⟨[]⟩).IsIncludedIn
      (if RefIsPositive ref then dom else dom.Negation) = true
  · rw [hinc hi]
    exact h
  · rw [Bool.not_eq_true] at hi
    rw [(hninc hi).2]
    by_cases hemp : ((ctx.domains.getD (refVar ref) ⟨[]⟩).IntersectionWith
        (if RefIsPositive ref then dom else dom.Negation)).IsEmpty = true
    · left
      simp only [List.getD_eq_getElem?_getD] at hemp
      simp [hemp]
    · rcases h with hu | ⟨hall, hlen⟩
      · left
        simp [hu]
      · right
        rw [Bool.not_eq_true] at hemp
        constructor
        · intro d' hd'
          dsimp only at hd'
          rcases List.mem_or_eq_of_mem_set hd' with hmem | heq
          · exact hall _ hmem
          · rw [heq]
            exact hemp
        · dsimp only
          rw [List.length_set]
          exact hlen

/-- Every context operation preserves the domain-store invariant. -/
theorem applyOp_dominv (ctx : PresolveContext) (op : CtxOp)
    (h : DomInvariant ctx) : DomInvariant (applyOp ctx op) := by
  rcases h with hu | ⟨hall, hlen⟩
  · left
    exact applyOp_unsat ctx op hu
  · cases op with
    | newVar d =>
      apply initializeNewDomains_dominv
      · exact hall
      · show ctx.domains.length ≤ (ctx.working_model.variables_ ++ [_]).length
        rw [List.length_append, hlen]
        omega
    | newBool =>
      apply initializeNewDomains_dominv
      · exact hall
      · show ctx.domains.length ≤ (ctx.working_model.variables_ ++ [_]).length
        rw [List.length_append, hlen]
        omega
    | constVar k =>
      simp only [applyOp, PresolveContext.GetOrCreateConstantVar]
      split_ifs with hk
      · exact Or.inr ⟨hall, hlen⟩
      · apply initializeNewDomains_dominv
        · exact hall
        · show ctx.domains.length ≤ (ctx.working_model.variables_ ++ [_]).length
          rw [List.length_append, hlen]
          omega
    | intersect ref d =>
      exact intersect_dominv ctx ref d none (Or.inr ⟨hall, hlen⟩)
    | setTrue lit =>
      exact intersect_dominv ctx (PositiveRef (NegatedRef lit)) _ none
        (Or.inr ⟨hall, hlen⟩)
    | setFalse lit =>
      exact intersect_dominv ctx (PositiveRef lit) _ none (Or.inr ⟨hall, hlen⟩)

/-- Splitting a sequence of context operations. -/
theorem applyOps_append (ctx : PresolveContext) (l1 l2 : List CtxOp) :
    applyOps ctx (l1 ++ l2) = applyOps (applyOps ctx l1) l2 := by
  induction l1 generalizing ctx with
  | nil => rfl
  | cons op rest ih =>
    simp only [List.cons_append, applyOps]
    exact ih _

/-- C2.  For every sequence of context operations (variable creation via
`new_variable` / `get_or_create_constant` and domain mutation via
`intersect_domain` / `set_literal_true` / `set_literal_false`), the state
invariant holds after each operation: every entry of the domain vector is a
non-empty domain, or `is_unsat` is true; and in particular creating a
variable with an empty domain sets `is_unsat`. -/
theorem c2_domain_invariant :
    (∀ ops : List CtxOp, DomInvariant (applyOps initialContext ops)) ∧
    (∀ (ops : List CtxOp) (d : Domain), d.IsEmpty = true →
      (applyOps initialContext (ops ++ [CtxOp.newVar d])).is_unsat = true) := by
  have hstep : ∀ (ops : List CtxOp) (ctx : PresolveContext),
      DomInvariant ctx → DomInvariant (applyOps ctx ops) := by
    intro ops
    induction ops with
    | nil => exact fun ctx h => h
    | cons op rest ih => exact fun ctx h => ih _ (applyOp_dominv ctx op h)
  have hinit : DomInvariant initialContext := by
    right
    constructor
    · intro d hd
      cases hd
    · rfl
  refine ⟨fun ops => hstep ops _ hinit, ?_⟩
  intro ops d hd
  rw [applyOps_append]
  have hdint : d.intervals = [] := by
    simpa [Domain.IsEmpty, List.isEmpty_iff] using hd
  rcases hstep ops _ hinit with hu | ⟨hall, hlen⟩
  · show (applyOps (applyOp _ (CtxOp.newVar d)) []).is_unsat = true
    exact applyOp_unsat _ _ hu
  · show (applyOps (applyOp _ (CtxOp.newVar d)) []).is_unsat = true
    show (applyOp _ (CtxOp.newVar d)).is_unsat = true
    simp only [applyOp, PresolveContext.NewIntVar, PresolveContext.InitializeNewDomains]
    have hfill : FillDomainInProto d = [] := by
      rw [FillDomainInProto, hdint]
      rfl
    have hdrop : ((applyOps initialContext ops).working_model.variables_ ++
        [IntegerVariableProto.mk (FillDomainInProto d)]).drop
          (applyOps initialContext ops).domains.length =
        [IntegerVariableProto.mk (FillDomainInProto d)] := by
      rw [hlen]
      exact List.drop_left _ _
    have hre : (ReadDomainFromProto (FillDomainInProto d)).IsEmpty = true := by
      rw [hfill]
      rfl
    rw [hdrop, initDomLoop]
    dsimp only
    rw [if_pos hre]

/-- Witness for C2: appending a variable with an empty domain after a normal
variable creation leaves the context infeasible. -/
theorem c2_domain_invariant_witness :
    (applyOps initialContext
      ([CtxOp.newVar (Domain.interval 0 4)] ++ [CtxOp.newVar ⟨[]⟩])).is_unsat = true :=
  c2_domain_invariant.2 [CtxOp.newVar (Domain.interval 0 4)] ⟨[]⟩ rfl

/-!  ### Association-list lemma kit -/

theorem alookup_cons [DecidableEq κ] (p : κ × β) (rest : List (κ × β)) (v : κ) :
    alookup (p :: rest) v = if p.1 = v then some p.2 else alookup rest v := rfl

theorem mapSet_cons [DecidableEq κ] (p : κ × β) (rest : List (κ × β)) (v : κ) (x : β) :
    mapSet (p :: rest) v x = if p.1 = v then (v, x) :: rest else p :: mapSet rest v x := rfl

theorem mapErase_cons [DecidableEq κ] (p : κ × β) (rest : List (κ × β)) (v : κ) :
    mapErase (p :: rest) v =
      if p.1 = v then mapErase rest v else p :: mapErase rest v := by
  by_cases h : p.1 = v
  · simp [mapErase, h]
  · simp [mapErase, h]

theorem alookup_mapSet_self [DecidableEq κ] (m : List (κ × β)) (v : κ) (x : β) :
    alookup (mapSet m v x) v = some x := by
  induction m with
  | nil => simp [mapSet, alookup]
  | cons p rest ih =>
    rw [mapSet_cons]
    by_cases h : p.1 = v
    · rw [if_pos h, alookup_cons, if_pos rfl]
    · rw [if_neg h, alookup_cons, if_neg h]
      exact ih

theorem alookup_mapSet_ne [DecidableEq κ] (m : List (κ × β)) (v w : κ) (x : β)
    (h : w ≠ v) : alookup (mapSet m v x) w = alookup m w := by
  induction m with
  | nil =>
    show alookup [(v, x)] w = none
    rw [alookup_cons, if_neg (Ne.symm h)]
    rfl
  | cons p rest ih =>
    rw [mapSet_cons]
    by_cases hp : p.1 = v
    · rw [if_pos hp, alookup_cons, alookup_cons, if_neg (Ne.symm h)]
      rw [if_neg (by rw [hp]; exact Ne.symm h)]
    · rw [if_neg hp, alookup_cons, alookup_cons]
      by_cases hw : p.1 = w
      · rw [if_pos hw, if_pos hw]
      · rw [if_neg hw, if_neg hw]
        exact ih

theorem alookup_mapErase_self [DecidableEq κ] (m : List (κ × β)) (v : κ) :
    alookup (mapErase m v) v = none := by
  induction m with
  | nil => rfl
  | cons p rest ih =>
    rw [mapErase_cons]
    by_cases h : p.1 = v
    · rw [if_pos h]
      exact ih
    · rw [if_neg h, alookup_cons, if_neg h]
      exact ih

theorem alookup_mapErase_ne [DecidableEq κ] (m : List (κ × β)) (v w : κ)
    (h : w ≠ v) : alookup (mapErase m v) w = alookup m w := by
  induction m with
  | nil => rfl
  | cons p rest ih =>
    rw [mapErase_cons]
    by_cases hp : p.1 = v
    · rw [if_pos hp, alookup_cons, if_neg (by rw [hp]; exact Ne.symm h)]
      exact ih
    · rw [if_neg hp, alookup_cons, alookup_cons]
      by_cases hw : p.1 = w
      · rw [if_pos hw, if_pos hw]
      · rw [if_neg hw, if_neg hw]
        exact ih

theorem mem_mapErase [DecidableEq κ] (m : List (κ × β)) (v : κ) (p : κ × β) :
    p ∈ mapErase m v ↔ p ∈ m ∧ p.1 ≠ v := by
  simp [mapErase, List.mem_filter]

theorem mem_mapSet_weak [DecidableEq κ] (m : List (κ × β)) (v : κ) (x : β)
    (p : κ × β) (h : p ∈ mapSet m v x) : p = (v, x) ∨ p ∈ m := by
  induction m with
  | nil => simpa [mapSet] using h
  | cons q rest ih =>
    rw [mapSet_cons] at h
    by_cases hq : q.1 = v
    · rw [if_pos hq] at h
      rcases List.mem_cons.mp h with h | h
      · exact Or.inl h
      · exact Or.inr (List.mem_cons_of_mem _ h)
    · rw [if_neg hq] at h
      rcases List.mem_cons.mp h with h | h
      · exact Or.inr (by rw [h]; exact List.mem_cons_self _ _)
      · rcases ih h with h | h
        · exact Or.inl h
        · exact Or.inr (List.mem_cons_of_mem _ h)

theorem keys_mapSet_of_found [DecidableEq κ] (m : List (κ × β)) (v : κ) (x : β)
    (h : (alookup m v).isSome) :
    (mapSet m v x).map Prod.fst = m.map Prod.fst := by
  induction m with
  | nil => simp [alookup] at h
  | cons p rest ih =>
    rw [mapSet_cons]
    by_cases hp : p.1 = v
    · rw [if_pos hp]
      simp [hp]
    · rw [alookup_cons, if_neg hp] at h
      rw [if_neg hp]
      simp only [List.map_cons]
      rw [ih h]

theorem keys_mapSet_of_new [DecidableEq κ] (m : List (κ × β)) (v : κ) (x : β)
    (h : alookup m v = none) :
    (mapSet m v x).map Prod.fst = m.map Prod.fst ++ [v] := by
  induction m with
  | nil => rfl
  | cons p rest ih =>
    rw [alookup_cons] at h
    by_cases hp : p.1 = v
    · rw [if_pos hp] at h
      cases h
    · rw [if_neg hp] at h
      rw [mapSet_cons, if_neg hp]
      simp only [List.map_cons, List.cons_append]
      rw [ih h]

theorem alookup_none_iff [DecidableEq κ] (m : List (κ × β)) (v : κ) :
    alookup m v = none ↔ v ∉ m.map Prod.fst := by
  induction m with
  | nil => simp [alookup]
  | cons p rest ih =>
    rw [alookup_cons]
    by_cases hp : p.1 = v
    · simp [hp]
    · rw [if_neg hp]
      simp only [List.map_cons, List.mem_cons]
      rw [ih]
      constructor
      · intro h hc
        rcases hc with hc | hc
        · exact hp hc.symm
        · exact h hc
      · intro h
        exact fun hc => h (Or.inr hc)

theorem alookup_isSome_of_mem [DecidableEq κ] (m : List (κ × β)) (p : κ × β)
    (h : p ∈ m) : (alookup m p.1).isSome := by
  induction m with
  | nil => cases h
  | cons q rest ih =>
    rw [alookup_cons]
    rcases List.mem_cons.mp h with h | h
    · rw [if_pos (by rw [h])]
      rfl
    · by_cases hq : q.1 = p.1
      · rw [if_pos hq]
        rfl
      · rw [if_neg hq]
        exact ih h

theorem keysNodup_mapSet (m : List (Nat × Int)) (v : Nat) (x : Int)
    (h : keysNodup m) : keysNodup (mapSet m v x) := by
  cases hl : alookup m v with
  | none =>
    rw [keysNodup, keys_mapSet_of_new m v x hl]
    rw [List.nodup_append]
    refine ⟨h, List.nodup_singleton v, ?_⟩
    intro a ha hb
    rw [List.mem_singleton] at hb
    subst hb
    exact (alookup_none_iff m a).mp hl ha
  | some y =>
    rw [keysNodup, keys_mapSet_of_found m v x (by rw [hl]; rfl)]
    exact h

theorem keysNodup_mapErase (m : List (Nat × Int)) (v : Nat)
    (h : keysNodup m) : keysNodup (mapErase m v) := by
  rw [keysNodup]
  exact ((List.filter_sublist m).map Prod.fst).nodup h

theorem mapGet_mapSet_self (m : List (Nat × Int)) (v : Nat) (x : Int) :
    mapGet (mapSet m v x) v = x := by
  rw [mapGet, alookup_mapSet_self]
  rfl

theorem mapGet_mapSet_ne (m : List (Nat × Int)) (v w : Nat) (x : Int)
    (h : w ≠ v) : mapGet (mapSet m v x) w = mapGet m w := by
  rw [mapGet, alookup_mapSet_ne m v w x h, mapGet]

theorem mapGet_mapErase_self (m : List (Nat × Int)) (v : Nat) :
    mapGet (mapErase m v) v = 0 := by
  rw [mapGet, alookup_mapErase_self]
  rfl

theorem mapGet_mapErase_ne (m : List (Nat × Int)) (v w : Nat)
    (h : w ≠ v) : mapGet (mapErase m v) w = mapGet m w := by
  rw [mapGet, alookup_mapErase_ne m v w h, mapGet]

/-!  ### Sorting lemma kit -/

theorem insLe_perm (le : α → α → Bool) (a : α) (l : List α) :
    (insLe le a l).Perm (a :: l) := by
  induction l with
  | nil => exact List.Perm.refl _
  | cons b rest ih =>
    rw [insLe]
    by_cases h : le a b
    · rw [if_pos h]
    · rw [if_neg h]
      exact (List.Perm.cons b ih).trans (List.Perm.swap a b rest)

theorem sortLe_perm (le : α → α → Bool) (l : List α) : (sortLe le l).Perm l := by
  induction l with
  | nil => exact List.Perm.refl _
  | cons a rest ih =>
    rw [sortLe]
    exact (insLe_perm le a _).trans (List.Perm.cons a ih)

/-!  ### Normalization preserves the denoted set of values -/

theorem insIv_perm (p : Int × Int) (l : List (Int × Int)) :
    (insIv p l).Perm (p :: l) := by
  induction l with
  | nil => exact List.Perm.refl _
  | cons q rest ih =>
    rw [insIv]
    by_cases h : p.1 ≤ q.1
    · rw [if_pos h]
    · rw [if_neg h]
      exact (List.Perm.cons q ih).trans (List.Perm.swap p q rest)

theorem sortIvs_perm (l : List (Int × Int)) : (sortIvs l).Perm l := by
  induction l with
  | nil => exact List.Perm.refl _
  | cons p rest ih =>
    rw [sortIvs]
    exact (insIv_perm p _).trans (List.Perm.cons p ih)

theorem insIv_pairwise (p : Int × Int) (l : List (Int × Int))
    (h : l.Pairwise lbLe) : (insIv p l).Pairwise lbLe := by
  induction l with
  | nil => exact List.pairwise_singleton _ _
  | cons q rest ih =>
    rw [insIv]
    rcases List.pairwise_cons.mp h with ⟨hq, hrest⟩
    by_cases hpq : p.1 ≤ q.1
    · rw [if_pos hpq]
      refine List.Pairwise.cons ?_ h
      intro r hr
      rcases List.mem_cons.mp hr with hr | hr
      · rw [hr]; exact hpq
      · exact le_trans hpq (hq r hr)
    · rw [if_neg hpq]
      refine List.Pairwise.cons ?_ (ih hrest)
      intro r hr
      rcases List.mem_cons.mp ((insIv_perm p rest).mem_iff.mp hr) with hr | hr
      · rw [hr]; exact le_of_not_le hpq
      · exact hq r hr

theorem sortIvs_pairwise (l : List (Int × Int)) : (sortIvs l).Pairwise lbLe := by
  induction l with
  | nil => exact List.Pairwise.nil
  | cons p rest ih =>
    rw [sortIvs]
    exact insIv_pairwise p _ ih

theorem fuse_mem (v : Int) : ∀ (l : List (Int × Int)) (cur : Int × Int),
    cur.1 ≤ cur.2 → (∀ q ∈ l, q.1 ≤ q.2) → (cur :: l).Pairwise lbLe →
    ((∃ q ∈ fuseIvs cur l, q.1 ≤ v ∧ v ≤ q.2) ↔
      (cur.1 ≤ v ∧ v ≤ cur.2) ∨ ∃ q ∈ l, q.1 ≤ v ∧ v ≤ q.2) := by
  intro l
  induction l with
  | nil =>
    intro cur hcur _ _
    rw [fuseIvs]
    simp
  | cons q rest ih =>
    intro cur hcur hval hpw
    rw [fuseIvs]
    have hq : q.1 ≤ q.2 := hval q (List.mem_cons_self _ _)
    have hrest_val : ∀ r ∈ rest, r.1 ≤ r.2 :=
      fun r hr => hval r (List.mem_cons_of_mem _ hr)
    by_cases h : q.1 ≤ cur.2 + 1
    · rw [if_pos h]
      have hcq : cur.1 ≤ q.1 := (List.pairwise_cons.mp hpw).1 q (List.mem_cons_self _ _)
      have hpw' : ((cur.1, max cur.2 q.2) :: rest).Pairwise lbLe := by
        rcases List.pairwise_cons.mp hpw with ⟨h1, h2⟩
        rcases List.pairwise_cons.mp h2 with ⟨_, h4⟩
        refine List.Pairwise.cons ?_ h4
        intro r hr
        exact h1 r (List.mem_cons_of_mem _ hr)
      rw [ih (cur.1, max cur.2 q.2) (le_trans hcur (le_max_left _ _)) hrest_val hpw']
      constructor
      · rintro (⟨h1, h2⟩ | he)
        · rcases max_choice cur.2 q.2 with hm | hm <;> rw [hm] at h2
          · exact Or.inl ⟨h1, h2⟩
          · by_cases hv2 : v ≤ cur.2
            · exact Or.inl ⟨h1, hv2⟩
            · exact Or.inr ⟨q, List.mem_cons_self _ _, by omega, h2⟩
        · obtain ⟨r, hr, hv⟩ := he
          exact Or.inr ⟨r, List.mem_cons_of_mem _ hr, hv⟩
      · rintro (⟨h1, h2⟩ | ⟨r, hr, h1, h2⟩)
        · exact Or.inl ⟨h1, le_trans h2 (le_max_left _ _)⟩
        · rcases List.mem_cons.mp hr with hr | hr
          · subst hr
            exact Or.inl ⟨le_trans hcq h1, le_trans h2 (le_max_right _ _)⟩
          · exact Or.inr ⟨r, hr, h1, h2⟩
    · rw [if_neg h]
      have hpw2 : (q :: rest).Pairwise lbLe := (List.pairwise_cons.mp hpw).2
      have hih := ih q hq hrest_val hpw2
      constructor
      · rintro ⟨r, hr, hv⟩
        rcases List.mem_cons.mp hr with hr | hr
        · exact Or.inl (hr ▸ hv)
        · rcases hih.mp ⟨r, hr, hv⟩ with h1 | ⟨s, hs, hv2⟩
          · exact Or.inr ⟨q, List.mem_cons_self _ _, h1⟩
          · exact Or.inr ⟨s, List.mem_cons_of_mem _ hs, hv2⟩
      · rintro (h1 | ⟨r, hr, hv⟩)
        · exact ⟨cur, List.mem_cons_self _ _, h1⟩
        · rcases List.mem_cons.mp hr with hre | hre
          · obtain ⟨s, hs, hv2⟩ := hih.mpr (Or.inl (hre ▸ hv))
            exact ⟨s, List.mem_cons_of_mem _ hs, hv2⟩
          · obtain ⟨s, hs, hv2⟩ := hih.mpr (Or.inr ⟨r, hre, hv⟩)
            exact ⟨s, List.mem_cons_of_mem _ hs, hv2⟩

theorem normIvs_mem (l : List (Int × Int)) (v : Int) :
    (∃ p ∈ normIvs l, p.1 ≤ v ∧ v ≤ p.2) ↔ ∃ p ∈ l, p.1 ≤ v ∧ v ≤ p.2 := by
  have hperm : (sortIvs (l.filter fun p => decide (p.1 ≤ p.2))).Perm
      (l.filter fun p => decide (p.1 ≤ p.2)) := sortIvs_perm _
  have hfm : ∀ p : Int × Int,
      p ∈ l.filter (fun p => decide (p.1 ≤ p.2)) ↔ p ∈ l ∧ p.1 ≤ p.2 := by
    intro p
    simp [List.mem_filter]
  have hright : (∃ p ∈ l.filter fun p => decide (p.1 ≤ p.2), p.1 ≤ v ∧ v ≤ p.2) ↔
      ∃ p ∈ l, p.1 ≤ v ∧ v ≤ p.2 := by
    constructor
    · rintro ⟨p, hp, hv⟩
      exact ⟨p, ((hfm p).mp hp).1, hv⟩
    · rintro ⟨p, hp, hv⟩
      exact ⟨p, (hfm p).mpr ⟨hp, le_trans hv.1 hv.2⟩, hv⟩
  rw [normIvs]
  cases hs : sortIvs (l.filter fun p => decide (p.1 ≤ p.2)) with
  | nil =>
    have hnil : l.filter (fun p => decide (p.1 ≤ p.2)) = [] := by
      have h2 := hperm
      rw [hs] at h2
      exact (h2.symm).eq_nil
    rw [← hright, hnil]
  | cons p rest =>
    have hval : ∀ q ∈ p :: rest, q.1 ≤ q.2 := by
      intro q hq
      have hq2 : q ∈ l.filter (fun p => decide (p.1 ≤ p.2)) := by
        rw [← hs] at hq
        exact hperm.mem_iff.mp hq
      exact ((hfm q).mp hq2).2
    have hsorted : (p :: rest).Pairwise lbLe := by
      rw [← hs]
      exact sortIvs_pairwise _
    rw [fuse_mem v rest p (hval p (List.mem_cons_self _ _))
      (fun q hq => hval q (List.mem_cons_of_mem _ hq)) hsorted]
    have hcomb : ((p.1 ≤ v ∧ v ≤ p.2) ∨ ∃ q ∈ rest, q.1 ≤ v ∧ v ≤ q.2) ↔
        ∃ q ∈ p :: rest, q.1 ≤ v ∧ v ≤ q.2 := by
      constructor
      · rintro (h1 | ⟨q, hq, hv⟩)
        · exact ⟨p, List.mem_cons_self _ _, h1⟩
        · exact ⟨q, List.mem_cons_of_mem _ hq, hv⟩
      · rintro ⟨q, hq, hv⟩
        rcases List.mem_cons.mp hq with hq | hq
        · exact Or.inl (hq ▸ hv)
        · exact Or.inr ⟨q, hq, hv⟩
    rw [hcomb, ← hright]
    constructor
    · rintro ⟨q, hq, hv⟩
      refine ⟨q, ?_, hv⟩
      rw [← hs] at hq
      exact hperm.mem_iff.mp hq
    · rintro ⟨q, hq, hv⟩
      refine ⟨q, ?_, hv⟩
      rw [← hs]
      exact hperm.mem_iff.mpr hq

/-- `normIvs` preserves the denoted set of values. -/
theorem contains_normIvs (l : List (Int × Int)) (v : Int) :
    Domain.Contains ⟨normIvs l⟩ v = Domain.Contains ⟨l⟩ v := by
  rw [Bool.eq_iff_iff]
  simp only [Domain.Contains, List.any_eq_true, Bool.and_eq_true, decide_eq_true_eq]
  exact normIvs_mem l v

theorem flatToPairs_flatMap (l : List (Int × Int)) :
    flatToPairs (l.flatMap fun p => [p.1, p.2]) = l := by
  induction l with
  | nil => rfl
  | cons p rest ih =>
    rw [List.flatMap_cons]
    show flatToPairs (p.1 :: p.2 :: rest.flatMap fun p => [p.1, p.2]) = p :: rest
    rw [flatToPairs, ih]

/-!  ### Characterizing `ReadObjectiveFromProto` -/

theorem refIsPositive_natCast (k : Nat) : RefIsPositive (k : Int) = true := by
  simp [RefIsPositive]

theorem refVar_natCast (k : Nat) : refVar (k : Int) = k := by
  rw [refVar, PositiveRef, if_pos (refIsPositive_natCast k)]
  exact Int.toNat_natCast k

theorem zip_map_pair (l : List α) (f : α → β) (g : α → γ) :
    (l.map f).zip (l.map g) = l.map fun a => (f a, g a) := by
  induction l with
  | nil => rfl
  | cons a rest ih => simp [ih]

theorem sum_if_zero (m : List (Nat × Int)) (v : Nat) (h : v ∉ m.map Prod.fst) :
    ((m.map fun p => if p.1 = v then p.2 else 0).sum) = 0 := by
  induction m with
  | nil => rfl
  | cons p rest ih =>
    rw [List.map_cons, List.mem_cons] at h
    push_neg at h
    rw [List.map_cons, List.sum_cons, if_neg (fun hh => h.1 hh.symm), ih h.2, add_zero]

theorem sum_if_keys (m : List (Nat × Int)) (v : Nat) (h : keysNodup m) :
    ((m.map fun p => if p.1 = v then p.2 else 0).sum) = mapGet m v := by
  induction m with
  | nil => rfl
  | cons p rest ih =>
    rw [keysNodup, List.map_cons] at h
    rcases List.nodup_cons.mp h with ⟨hp, hrest⟩
    rw [List.map_cons, List.sum_cons]
    by_cases hv : p.1 = v
    · rw [if_pos hv, sum_if_zero rest v (by rw [← hv]; exact hp)]
      rw [mapGet, alookup_cons, if_pos hv]
      simp
    · rw [if_neg hv, ih hrest, zero_add, mapGet, mapGet, alookup_cons, if_neg hv]

theorem signed_coeff_eq (b : Bool) (c0 : Int) :
    (if !b then -c0 else c0) = (if b then c0 else -c0) := by
  cases b <;> rfl

theorem readObjLoop_fields : ∀ (terms : List (Int × Int)) (ctx : PresolveContext),
    (readObjLoop ctx terms).working_model = ctx.working_model ∧
    (readObjLoop ctx terms).objective_offset = ctx.objective_offset ∧
    (readObjLoop ctx terms).objective_scaling_factor = ctx.objective_scaling_factor ∧
    (readObjLoop ctx terms).objective_domain = ctx.objective_domain ∧
    (readObjLoop ctx terms).objective_domain_is_constraining =
      ctx.objective_domain_is_constraining ∧
    (readObjLoop ctx terms).is_unsat = ctx.is_unsat := by
  intro terms
  induction terms with
  | nil =>
    intro ctx
    exact ⟨rfl, rfl, rfl, rfl, rfl, rfl⟩
  | cons t rest ih =>
    intro ctx
    obtain ⟨ref, c0⟩ := t
    rw [readObjLoop]
    by_cases h :
        mapGet ctx.objective_map (refVar ref) + (if !RefIsPositive ref then -c0 else c0) = 0
    · rw [if_pos h]
      exact ih _
    · rw [if_neg h]
      exact ih _

theorem readObjLoop_mapGet : ∀ (terms : List (Int × Int)) (ctx : PresolveContext) (v : Nat),
    mapGet (readObjLoop ctx terms).objective_map v =
      mapGet ctx.objective_map v + termSum terms v := by
  intro terms
  induction terms with
  | nil =>
    intro ctx v
    rw [readObjLoop, termSum, List.map_nil, List.sum_nil, add_zero]
  | cons t rest ih =>
    intro ctx v
    obtain ⟨ref, c0⟩ := t
    rw [readObjLoop]
    have hts : termSum ((ref, c0) :: rest) v =
        (if refVar ref = v then (if RefIsPositive ref then c0 else -c0) else 0) +
          termSum rest v := by
      rw [termSum, List.map_cons, List.sum_cons, termSum]
    rw [hts]
    by_cases h :
        mapGet ctx.objective_map (refVar ref) + (if !RefIsPositive ref then -c0 else c0) = 0
    · rw [if_pos h, ih]
      dsimp only [PresolveContext.vtcErase]
      rw [signed_coeff_eq] at h
      by_cases hv : v = refVar ref
      · subst hv
        rw [mapGet_mapErase_self, if_pos rfl]
        omega
      · rw [mapGet_mapErase_ne _ (refVar ref) v hv,
          mapGet_mapSet_ne _ (refVar ref) v _ hv, if_neg (fun hh => hv hh.symm)]
        omega
    · rw [if_neg h, ih]
      dsimp only [PresolveContext.vtcInsert]
      by_cases hv : v = refVar ref
      · subst hv
        rw [mapGet_mapSet_self, if_pos rfl, signed_coeff_eq]
        omega
      · rw [mapGet_mapSet_ne _ (refVar ref) v _ hv, if_neg (fun hh => hv hh.symm)]
        omega

theorem readObjLoop_nodup_nz : ∀ (terms : List (Int × Int)) (ctx : PresolveContext),
    keysNodup ctx.objective_map → mapNZ ctx.objective_map →
    keysNodup (readObjLoop ctx terms).objective_map ∧
      mapNZ (readObjLoop ctx terms).objective_map := by
  intro terms
  induction terms with
  | nil =>
    intro ctx h1 h2
    exact ⟨h1, h2⟩
  | cons t rest ih =>
    intro ctx h1 h2
    obtain ⟨ref, c0⟩ := t
    rw [readObjLoop]
    by_cases h :
        mapGet ctx.objective_map (refVar ref) + (if !RefIsPositive ref then -c0 else c0) = 0
    · rw [if_pos h]
      refine ih _ ?_ ?_
      · exact keysNodup_mapErase _ _ (keysNodup_mapSet _ _ _ h1)
      · intro p hp
        dsimp only [PresolveContext.vtcErase] at hp
        rw [mem_mapErase] at hp
        rcases mem_mapSet_weak _ _ _ _ hp.1 with he | he
        · exact absurd (by rw [he]) hp.2
        · exact h2 p he
    · rw [if_neg h]
      refine ih _ ?_ ?_
      · exact keysNodup_mapSet _ _ _ h1
      · intro p hp
        dsimp only [PresolveContext.vtcInsert] at hp
        rcases mem_mapSet_weak _ _ _ _ hp with he | he
        · rw [he]
          simpa using h
        · exact h2 p he

/-- The full characterization of `ReadObjectiveFromProto`: which fields it
sets, and the folded coefficient function it stores in `objective_map`. -/
theorem readObjectiveFromProto_spec (ctx : PresolveContext) :
    ctx.ReadObjectiveFromProto.working_model = ctx.working_model ∧
    ctx.ReadObjectiveFromProto.objective_offset = ctx.working_model.objective.offset ∧
    ctx.ReadObjectiveFromProto.objective_scaling_factor =
      (if ctx.working_model.objective.scaling_factor = 0 then 1
       else ctx.working_model.objective.scaling_factor) ∧
    ctx.ReadObjectiveFromProto.objective_domain =
      (if ctx.working_model.objective.domain ≠ [] then
        ReadDomainFromProto ctx.working_model.objective.domain
       else Domain.AllValues) ∧
    (∀ v, mapGet ctx.ReadObjectiveFromProto.objective_map v =
      termSum (ctx.working_model.objective.vars.zip ctx.working_model.objective.coeffs) v) ∧
    keysNodup ctx.ReadObjectiveFromProto.objective_map ∧
    mapNZ ctx.ReadObjectiveFromProto.objective_map := by
  rw [PresolveContext.ReadObjectiveFromProto]
  dsimp only
  by_cases hd : ctx.working_model.objective.domain ≠ ([] : List Int)
  · rw [if_pos hd, if_pos hd]
    refine ⟨(readObjLoop_fields _ _).1, (readObjLoop_fields _ _).2.1,
      (readObjLoop_fields _ _).2.2.1, (readObjLoop_fields _ _).2.2.2.1, ?_, ?_, ?_⟩
    · intro v
      rw [readObjLoop_mapGet]
      show mapGet [] v + _ = _
      rw [mapGet, alookup, Option.getD_none, zero_add]
    · refine (readObjLoop_nodup_nz _ _ ?_ ?_).1
      · exact List.nodup_nil
      · exact fun p hp => absurd hp (List.not_mem_nil p)
    · refine (readObjLoop_nodup_nz _ _ ?_ ?_).2
      · exact List.nodup_nil
      · exact fun p hp => absurd hp (List.not_mem_nil p)
  · rw [if_neg hd, if_neg hd]
    refine ⟨(readObjLoop_fields _ _).1, (readObjLoop_fields _ _).2.1,
      (readObjLoop_fields _ _).2.2.1, (readObjLoop_fields _ _).2.2.2.1, ?_, ?_, ?_⟩
    · intro v
      rw [readObjLoop_mapGet]
      show mapGet [] v + _ = _
      rw [mapGet, alookup, Option.getD_none, zero_add]
    · refine (readObjLoop_nodup_nz _ _ ?_ ?_).1
      · exact List.nodup_nil
      · exact fun p hp => absurd hp (List.not_mem_nil p)
    · refine (readObjLoop_nodup_nz _ _ ?_ ?_).2
      · exact List.nodup_nil
      · exact fun p hp => absurd hp (List.not_mem_nil p)

/-- **C7 counterexample.**  The claim fails as stated: for an objective proto
with `scaling_factor = 0` and `offset = 1`, the read/write round trip rewrites
the scaling factor to `1` (source line 715), so the user-visible objective
value `scaling_factor · (raw + offset)` changes (at raw value `0` it goes
from `0` to `1`). -/
theorem c7_counterexample :
    userVisibleValue c7RoundTrip.working_model.objective 0 ≠
      userVisibleValue c7ZeroScalingCtx.working_model.objective 0 ∧
    c7RoundTrip.working_model.objective.scaling_factor ≠
      c7ZeroScalingCtx.working_model.objective.scaling_factor := by
  have hs1 : c7RoundTrip.working_model.objective.scaling_factor = 1 := rfl
  have ho1 : c7RoundTrip.working_model.objective.offset = 1 := rfl
  have hs0 : c7ZeroScalingCtx.working_model.objective.scaling_factor = 0 := rfl
  have ho0 : c7ZeroScalingCtx.working_model.objective.offset = 1 := rfl
  constructor
  · rw [userVisibleValue, userVisibleValue, hs1, ho1, hs0, ho0]
    norm_num
  · rw [hs1, hs0]
    exact one_ne_zero

set_option maxHeartbeats 1000000 in
/-- **C7 (amended).**  For every objective proto whose `scaling_factor` is
non-zero, `ReadObjectiveFromProto` followed immediately by
`WriteObjectiveToProto` produces an objective proto denoting the same logical
objective: the same folded variable-to-coefficient function, a flat domain
denoting the same set of values, and the same user-visible value
`scaling_factor · (raw + offset)`.  (When the `scaling_factor` is zero the
read rewrites it to `1`, which is the counterexample to the unamended
claim.) -/
theorem c7_round_trip (ctx : PresolveContext)
    (hs : ctx.working_model.objective.scaling_factor ≠ 0) :
    (∀ v : Nat,
      objCoeffFn (ctx.ReadObjectiveFromProto.WriteObjectiveToProto).working_model.objective v =
        objCoeffFn ctx.working_model.objective v) ∧
    (∀ w : Int,
      (objDomainDenote
          (ctx.ReadObjectiveFromProto.WriteObjectiveToProto).working_model.objective).Contains w =
        (objDomainDenote ctx.working_model.objective).Contains w) ∧
    (∀ raw : Rat,
      userVisibleValue (ctx.ReadObjectiveFromProto.WriteObjectiveToProto).working_model.objective raw =
        userVisibleValue ctx.working_model.objective raw) := by
  obtain ⟨hwm, hoff, hscale, hdom, hmap, hnodup, hnz⟩ := readObjectiveFromProto_spec ctx
  rw [PresolveContext.WriteObjectiveToProto]
  by_cases he : ctx.ReadObjectiveFromProto.objective_domain.IsEmpty = true
  · rw [if_pos he]
    have hobj : (ctx.ReadObjectiveFromProto.NotifyThatModelIsUnsat).working_model.objective =
        ctx.working_model.objective := by
      have hstep : (ctx.ReadObjectiveFromProto.NotifyThatModelIsUnsat).working_model =
          ctx.ReadObjectiveFromProto.working_model := rfl
      rw [hstep, hwm]
    rw [hobj]
    exact ⟨fun v => rfl, fun w => rfl, fun raw => rfl⟩
  · rw [if_neg he]
    dsimp only
    have hne : ctx.ReadObjectiveFromProto.objective_domain.intervals ≠ [] := by
      intro hc
      apply he
      rw [Domain.IsEmpty, hc]
      rfl
    refine ⟨?_, ?_, ?_⟩
    · intro v
      rw [objCoeffFn]
      dsimp only
      rw [zip_map_pair, List.map_map]
      have hfun : ((fun p : Int × Int =>
            if refVar p.1 = v then (if RefIsPositive p.1 then p.2 else -p.2) else 0) ∘
          fun p : Nat × Int => ((p.1 : Int), p.2)) =
          fun p : Nat × Int => if p.1 = v then p.2 else 0 := by
        funext p
        simp [Function.comp, refVar_natCast, refIsPositive_natCast]
      rw [hfun]
      rw [List.Perm.sum_eq (List.Perm.map _ (sortLe_perm pairLe _))]
      rw [sum_if_keys _ v hnodup, hmap v]
      rfl
    · intro w
      have hfill : FillDomainInProto ctx.ReadObjectiveFromProto.objective_domain ≠
          ([] : List Int) := by
        rw [FillDomainInProto]
        cases hint : ctx.ReadObjectiveFromProto.objective_domain.intervals with
        | nil => exact absurd hint hne
        | cons p rest =>
          rw [List.flatMap_cons]
          simp
      rw [objDomainDenote]
      dsimp only
      rw [if_neg hfill]
      rw [ReadDomainFromProto, FillDomainInProto, flatToPairs_flatMap]
      rw [contains_normIvs, hdom]
      by_cases hid : ctx.working_model.objective.domain = ([] : List Int)
      · rw [if_neg (fun hcon => hcon hid), objDomainDenote, if_pos hid]
      · rw [if_pos hid, objDomainDenote, if_neg hid]
    · intro raw
      rw [userVisibleValue, userVisibleValue]
      dsimp only
      rw [hscale, if_neg hs, hoff]

/-- Witness for C7 (amended): the round trip on a concrete objective proto
`5·x₀ − 4·x₁` with scaling factor `3` preserves the folded coefficient of
`x₁`, membership of `3` in the denoted domain, and the user-visible value at
raw value `7`. -/
theorem c7_round_trip_witness :
    objCoeffFn (c7WitnessCtx.ReadObjectiveFromProto.WriteObjectiveToProto).working_model.objective 1 =
      objCoeffFn c7WitnessCtx.working_model.objective 1 ∧
    (objDomainDenote
        (c7WitnessCtx.ReadObjectiveFromProto.WriteObjectiveToProto).working_model.objective).Contains 3 =
      (objDomainDenote c7WitnessCtx.working_model.objective).Contains 3 ∧
    userVisibleValue (c7WitnessCtx.ReadObjectiveFromProto.WriteObjectiveToProto).working_model.objective 7 =
      userVisibleValue c7WitnessCtx.working_model.objective 7 :=
  ⟨(c7_round_trip c7WitnessCtx (by decide)).1 1,
   (c7_round_trip c7WitnessCtx (by decide)).2.1 3,
   (c7_round_trip c7WitnessCtx (by decide)).2.2 7⟩

/-!  ### Characterizing `SubstituteVariableInObjective` -/

theorem listModify_getD_ne (l : List (Finset Int)) (i j : Nat)
    (f : Finset Int → Finset Int) (h : j ≠ i) :
    (listModify l i f).getD j ∅ = l.getD j ∅ := by
  rw [listModify]
  cases hx : l.get? i with
  | none => rfl
  | some x =>
    dsimp only
    rw [List.getD_eq_getElem?_getD, List.getD_eq_getElem?_getD,
      List.getElem?_set_ne (fun hh => h hh.symm)]

theorem normIvs_single (a b : Int) (h : a ≤ b) : normIvs [(a, b)] = [(a, b)] := by
  have hf : ([(a, b)] : List (Int × Int)).filter (fun p => decide (p.1 ≤ p.2)) = [(a, b)] := by
    simp [h]
  rw [normIvs, hf]
  rfl

theorem readDomain_pair_mult (k c : Int) :
    (ReadDomainFromProto [k, k]).MultiplicationBy c = Domain.single (k * c) := by
  have h1 : ReadDomainFromProto [k, k] = Domain.single k := by
    rw [ReadDomainFromProto]
    show Domain.mk (normIvs [(k, k)]) = _
    rw [normIvs_single k k le_rfl]
    rfl
  rw [h1, Domain.MultiplicationBy]
  by_cases hc0 : c = 0
  · rw [if_pos hc0, hc0, mul_zero]
    rfl
  · rw [if_neg hc0]
    by_cases hc1 : c = 1
    · rw [if_pos hc1, hc1, mul_one]
    · rw [if_neg hc1]
      have hlist : (Domain.single k).intervals.flatMap (fun p =>
          if p.1 ≤ p.2 then
            (List.range (p.2 - p.1 + 1).toNat).map fun i =>
              ((p.1 + (i : Int)) * c, (p.1 + (i : Int)) * c)
          else []) = [(k * c, k * c)] := by
        show (if k ≤ k then
            (List.range (k - k + 1).toNat).map fun i =>
              ((k + (i : Int)) * c, (k + (i : Int)) * c)
          else []) ++ [] = [(k * c, k * c)]
        rw [if_pos le_rfl, List.append_nil]
        have ht : (k - k + 1).toNat = 1 := by omega
        have hr : List.range 1 = [0] := rfl
        rw [ht, hr]
        simp
      rw [hlist, normIvs_single (k * c) (k * c) le_rfl]
      rfl

theorem substLoop_fields (varInEq : Nat) (mult : Int) :
    ∀ (terms : List (Int × Int)) (ctx : PresolveContext) (newVars : List Nat),
    (substLoop varInEq mult ctx newVars terms).1.objective_offset = ctx.objective_offset ∧
    (substLoop varInEq mult ctx newVars terms).1.objective_domain = ctx.objective_domain ∧
    (substLoop varInEq mult ctx newVars terms).1.objective_domain_is_constraining =
      ctx.objective_domain_is_constraining ∧
    (substLoop varInEq mult ctx newVars terms).1.vtcGet varInEq = ctx.vtcGet varInEq := by
  intro terms
  induction terms with
  | nil =>
    intro ctx newVars
    exact ⟨rfl, rfl, rfl, rfl⟩
  | cons t rest ih =>
    intro ctx newVars
    rw [substLoop]
    by_cases hv : (normTerm t).1 = varInEq
    · rw [if_pos hv]
      exact ih _ _
    · rw [if_neg hv]
      dsimp only
      by_cases hnv : mapGet ctx.objective_map (normTerm t).1 - (normTerm t).2 * mult = 0
      · rw [if_pos hnv]
        refine ⟨(ih _ _).1, (ih _ _).2.1, (ih _ _).2.2.1, ?_⟩
        rw [(ih _ _).2.2.2]
        show ((({ ctx with objective_map := _ } : PresolveContext).vtcErase
          (normTerm t).1 (-1)).vtcGet varInEq) = _
        rw [PresolveContext.vtcErase, PresolveContext.vtcGet]
        dsimp only
        rw [listModify_getD_ne _ _ _ _ (fun hh => hv hh.symm)]
        rfl
      · rw [if_neg hnv]
        refine ⟨(ih _ _).1, (ih _ _).2.1, (ih _ _).2.2.1, ?_⟩
        rw [(ih _ _).2.2.2]
        show ((({ ctx with objective_map := _ } : PresolveContext).vtcInsert
          (normTerm t).1 (-1)).vtcGet varInEq) = _
        rw [PresolveContext.vtcInsert, PresolveContext.vtcGet]
        dsimp only
        rw [listModify_getD_ne _ _ _ _ (fun hh => hv hh.symm)]
        rfl

theorem substLoop_mapGet (varInEq : Nat) (mult : Int) :
    ∀ (terms : List (Int × Int)) (ctx : PresolveContext) (newVars : List Nat) (v : Nat),
    mapGet (substLoop varInEq mult ctx newVars terms).1.objective_map v =
      mapGet ctx.objective_map v - subSum varInEq terms v * mult := by
  intro terms
  induction terms with
  | nil =>
    intro ctx newVars v
    rw [substLoop, subSum, List.map_nil, List.sum_nil, zero_mul, sub_zero]
  | cons t rest ih =>
    intro ctx newVars v
    have hts : subSum varInEq (t :: rest) v =
        (if (normTerm t).1 ≠ varInEq ∧ (normTerm t).1 = v then (normTerm t).2 else 0) +
          subSum varInEq rest v := by
      rw [subSum, List.map_cons, List.sum_cons, subSum]
    rw [substLoop, hts]
    by_cases hv : (normTerm t).1 = varInEq
    · rw [if_pos hv, ih, if_neg (fun hc => hc.1 hv)]
      ring
    · rw [if_neg hv]
      dsimp only
      by_cases hnv : mapGet ctx.objective_map (normTerm t).1 - (normTerm t).2 * mult = 0
      · rw [if_pos hnv, ih]
        dsimp only [PresolveContext.vtcErase]
        by_cases hvv : v = (normTerm t).1
        · subst hvv
          rw [mapGet_mapErase_self, if_pos ⟨hv, rfl⟩]
          linarith [hnv]
        · rw [mapGet_mapErase_ne _ (normTerm t).1 v hvv,
            mapGet_mapSet_ne _ (normTerm t).1 v _ hvv,
            if_neg (fun hc => hvv hc.2.symm)]
          ring
      · rw [if_neg hnv, ih]
        dsimp only [PresolveContext.vtcInsert]
        by_cases hvv : v = (normTerm t).1
        · subst hvv
          rw [mapGet_mapSet_self, if_pos ⟨hv, rfl⟩]
          ring
        · rw [mapGet_mapSet_ne _ (normTerm t).1 v _ hvv,
            if_neg (fun hc => hvv hc.2.symm)]
          ring

theorem listModify_getD_self (l : List (Finset Int)) (i : Nat)
    (f : Finset Int → Finset Int) (hf : f ∅ = ∅) :
    (listModify l i f).getD i ∅ = f (l.getD i ∅) := by
  rw [listModify]
  cases hx : l.get? i with
  | none =>
    have hlen : l.length ≤ i := by
      by_contra hc
      push_neg at hc
      rw [List.get?_eq_getElem?, List.getElem?_eq_getElem hc] at hx
      cases hx
    rw [List.getD_eq_getElem?_getD, List.getElem?_eq_none hlen]
    rw [Option.getD_none, hf]
  | some x =>
    dsimp only
    have hlt : i < l.length := by
      by_contra hc
      push_neg at hc
      rw [List.get?_eq_getElem?, List.getElem?_eq_none hc] at hx
      cases hx
    have hxv : l[i] = x := by
      rw [List.get?_eq_getElem?, List.getElem?_eq_getElem hlt] at hx
      exact Option.some.inj hx
    rw [List.getD_eq_getElem?_getD, List.getElem?_set_self' ]
    rw [List.getD_eq_getElem?_getD, List.getElem?_eq_getElem hlt]
    simp [hxv]

theorem domain_min_single (x : Int) : (Domain.single x).Min = x := rfl

theorem filter_newvars_congr (varInEq : Nat) (x : Nat) (rest : List (Int × Int))
    (m1 m2 : List (Nat × Int))
    (hvt : x ∉ rest.map fun t => (normTerm t).1)
    (hagree : ∀ w, w ≠ x → mapGet m1 w = mapGet m2 w) :
    rest.filter (fun t2 => decide ((normTerm t2).1 ≠ varInEq) &&
        decide (mapGet m1 (normTerm t2).1 = 0)) =
      rest.filter (fun t2 => decide ((normTerm t2).1 ≠ varInEq) &&
        decide (mapGet m2 (normTerm t2).1 = 0)) := by
  apply List.filter_congr
  intro t2 ht2
  have hne : (normTerm t2).1 ≠ x := by
    intro hc
    exact hvt (hc ▸ List.mem_map_of_mem _ ht2)
  rw [hagree _ hne]

theorem substLoop_newVars (varInEq : Nat) (mult : Int) :
    ∀ (terms : List (Int × Int)) (ctx : PresolveContext) (newVars : List Nat),
    (terms.map fun t => (normTerm t).1).Nodup →
    (substLoop varInEq mult ctx newVars terms).2 =
      newVars ++ (terms.filter fun t =>
        decide ((normTerm t).1 ≠ varInEq) &&
          decide (mapGet ctx.objective_map (normTerm t).1 = 0)).map
        fun t => (normTerm t).1 := by
  intro terms
  induction terms with
  | nil =>
    intro ctx newVars _
    rw [substLoop, List.filter_nil, List.map_nil, List.append_nil]
  | cons t rest ih =>
    intro ctx newVars hnd
    rw [List.map_cons] at hnd
    rcases List.nodup_cons.mp hnd with ⟨hvt, hrest⟩
    rw [substLoop, List.filter_cons]
    by_cases hv : (normTerm t).1 = varInEq
    · rw [if_pos hv]
      have hc : (decide ((normTerm t).1 ≠ varInEq) &&
          decide (mapGet ctx.objective_map (normTerm t).1 = 0)) = false := by
        rw [decide_eq_false (not_not_intro hv), Bool.false_and]
      rw [hc, if_neg Bool.false_ne_true]
      exact ih _ _ hrest
    · rw [if_neg hv]
      dsimp only
      have hcd : (decide ((normTerm t).1 ≠ varInEq) &&
          decide (mapGet ctx.objective_map (normTerm t).1 = 0)) =
          decide (mapGet ctx.objective_map (normTerm t).1 = 0) := by
        rw [decide_eq_true hv, Bool.true_and]
      rw [hcd]
      by_cases hnv : mapGet ctx.objective_map (normTerm t).1 - (normTerm t).2 * mult = 0
      · rw [if_pos hnv, ih _ _ hrest]
        dsimp only [PresolveContext.vtcErase]
        have hag : ∀ w, w ≠ (normTerm t).1 →
            mapGet (mapErase (mapSet ctx.objective_map (normTerm t).1
              (mapGet ctx.objective_map (normTerm t).1 - (normTerm t).2 * mult))
              (normTerm t).1) w = mapGet ctx.objective_map w := by
          intro w hw
          rw [mapGet_mapErase_ne _ _ _ hw, mapGet_mapSet_ne _ _ _ _ hw]
        rw [filter_newvars_congr varInEq (normTerm t).1 rest _ _ hvt hag]
        by_cases h0 : mapGet ctx.objective_map (normTerm t).1 = 0
        · rw [if_pos h0, decide_eq_true h0, if_pos rfl, List.map_cons, List.append_assoc]
          rfl
        · rw [if_neg h0, decide_eq_false h0, if_neg Bool.false_ne_true]
      · rw [if_neg hnv, ih _ _ hrest]
        dsimp only [PresolveContext.vtcInsert]
        have hag : ∀ w, w ≠ (normTerm t).1 →
            mapGet (mapSet ctx.objective_map (normTerm t).1
              (mapGet ctx.objective_map (normTerm t).1 - (normTerm t).2 * mult)) w =
              mapGet ctx.objective_map w := by
          intro w hw
          rw [mapGet_mapSet_ne _ _ _ _ hw]
        rw [filter_newvars_congr varInEq (normTerm t).1 rest _ _ hvt hag]
        by_cases h0 : mapGet ctx.objective_map (normTerm t).1 = 0
        · rw [if_pos h0, decide_eq_true h0, if_pos rfl, List.map_cons, List.append_assoc]
          rfl
        · rw [if_neg h0, decide_eq_false h0, if_neg Bool.false_ne_true]

set_option maxHeartbeats 1000000 in
/-- **C6.**  Under the preconditions that `var_in_equality` is a positive
reference, `objective_map` contains it and its coefficient is an exact
multiple of `coeff_in_equality`, `SubstituteVariableInObjective` with
`multiplier = coeff_in_objective / coeff_in_equality`: decrements
`objective_map[v]` by the total sign-normalized equality coefficient of `v`
times the multiplier for every `v` other than `var_in_equality` (so absent
entries are created and entries reaching zero are erased, `mapGet` giving the
folded value in all cases); reports in `out_new_vars` exactly the other
equality variables whose entry was absent, in order; erases
`var_in_equality` from the map and its `-1` objective sentinel from
`var_to_constraints_`; adds `k·multiplier` to `objective_offset` and shifts
`objective_domain` by `−k·multiplier` where `{k}` is the equality's fixed
right-hand side; and leaves `objective_domain_is_constraining` true. -/
theorem c6_substitute_objective
    (ctx : PresolveContext) (var_in_equality coeff_in_equality : Int)
    (equality : ConstraintProto) (lin : LinearConstraintProto) (k multiplier : Int)
    (hlin : equality.linear = some lin)
    (hpos : RefIsPositive var_in_equality = true)
    (hmem : (alookup ctx.objective_map (refVar var_in_equality)).isSome = true)
    (hdvd : coeff_in_equality ∣ mapGet ctx.objective_map (refVar var_in_equality))
    (hmult : multiplier =
      (mapGet ctx.objective_map (refVar var_in_equality)).tdiv coeff_in_equality)
    (hk : lin.domain = [k, k])
    (hnd : ((lin.vars.zip lin.coeffs).map fun t => (normTerm t).1).Nodup) :
    (∀ v : Nat, v ≠ refVar var_in_equality →
      mapGet (ctx.SubstituteVariableInObjective var_in_equality coeff_in_equality
          equality).1.objective_map v =
        mapGet ctx.objective_map v -
          subSum (refVar var_in_equality) (lin.vars.zip lin.coeffs) v * multiplier) ∧
    alookup (ctx.SubstituteVariableInObjective var_in_equality coeff_in_equality
        equality).1.objective_map (refVar var_in_equality) = none ∧
    (ctx.SubstituteVariableInObjective var_in_equality coeff_in_equality
        equality).1.vtcGet (refVar var_in_equality) =
      (ctx.vtcGet (refVar var_in_equality)).erase (-1) ∧
    (ctx.SubstituteVariableInObjective var_in_equality coeff_in_equality
        equality).1.objective_offset =
      ctx.objective_offset + ((k * multiplier : Int) : Rat) ∧
    (ctx.SubstituteVariableInObjective var_in_equality coeff_in_equality
        equality).1.objective_domain =
      ctx.objective_domain.AdditionWith (Domain.single (-(k * multiplier))) ∧
    (ctx.SubstituteVariableInObjective var_in_equality coeff_in_equality
        equality).1.objective_domain_is_constraining = true ∧
    (ctx.SubstituteVariableInObjective var_in_equality coeff_in_equality equality).2 =
      ((lin.vars.zip lin.coeffs).filter fun t =>
        decide ((normTerm t).1 ≠ refVar var_in_equality) &&
          decide (mapGet ctx.objective_map (normTerm t).1 = 0)).map
        fun t => (normTerm t).1 := by
  subst hmult
  rw [PresolveContext.SubstituteVariableInObjective]
  dsimp only
  rw [hlin, Option.getD_some, hk, readDomain_pair_mult, domain_min_single]
  refine ⟨?_, ?_, ?_, ?_, ?_, ?_, ?_⟩
  · intro v hvne
    dsimp only [PresolveContext.vtcErase]
    rw [mapGet_mapErase_ne _ _ _ hvne, substLoop_mapGet]
  · dsimp only [PresolveContext.vtcErase]
    rw [alookup_mapErase_self]
  · dsimp only [PresolveContext.vtcErase, PresolveContext.vtcGet]
    rw [listModify_getD_self _ _ _ (Finset.erase_empty _)]
    have hfld := (substLoop_fields (refVar var_in_equality)
      ((mapGet ctx.objective_map (refVar var_in_equality)).tdiv coeff_in_equality)
      (lin.vars.zip lin.coeffs) ctx []).2.2.2
    rw [PresolveContext.vtcGet] at hfld
    rw [hfld]
    rfl
  · dsimp only [PresolveContext.vtcErase]
    rw [(substLoop_fields _ _ _ _ _).1]
  · dsimp only [PresolveContext.vtcErase]
    rw [(substLoop_fields _ _ _ _ _).2.1]
  · rfl
  · rw [substLoop_newVars _ _ _ _ _ hnd, List.nil_append]

/-- Witness for C6: substituting `x₀` (objective coefficient `5`) using the
equality `x₀ + 2·x₁ − x₂ = 4` with `coeff_in_equality = 1` and multiplier
`5`: the folded decrement of `x₁`'s objective entry, and the erasure of
`x₀` from the map. -/
theorem c6_substitute_objective_witness :
    mapGet (substScenario.SubstituteVariableInObjective 0 1 substEquality).1.objective_map 1 =
      mapGet substScenario.objective_map 1 -
        subSum 0 (([0, 1, -3] : List Int).zip ([1, 2, 1] : List Int)) 1 *
          (mapGet substScenario.objective_map 0).tdiv 1 ∧
    alookup (substScenario.SubstituteVariableInObjective 0 1 substEquality).1.objective_map 0 =
      none :=
  ⟨(c6_substitute_objective substScenario 0 1 substEquality ⟨[0, 1, -3], [1, 2, 1], [4, 4]⟩
      4 ((mapGet substScenario.objective_map 0).tdiv 1) rfl rfl (by decide) (one_dvd _) rfl
      rfl (by decide)).1 1 (by decide),
   (c6_substitute_objective substScenario 0 1 substEquality ⟨[0, 1, -3], [1, 2, 1], [4, 4]⟩
      4 ((mapGet substScenario.objective_map 0).tdiv 1) rfl rfl (by decide) (one_dvd _) rfl
      rfl (by decide)).2.1⟩

/-!  ### Characterizing `CanonicalizeObjective` -/

theorem foldGcd_dvd : ∀ (xs : List Nat) (a : Nat),
    (xs.foldl Nat.gcd a ∣ a) ∧ ∀ x ∈ xs, xs.foldl Nat.gcd a ∣ x := by
  intro xs
  induction xs with
  | nil =>
    intro a
    exact ⟨dvd_refl a, fun x hx => absurd hx (List.not_mem_nil x)⟩
  | cons y ys ih =>
    intro a
    rw [List.foldl_cons]
    refine ⟨dvd_trans (ih (Nat.gcd a y)).1 (Nat.gcd_dvd_left a y), ?_⟩
    intro x hx
    rcases List.mem_cons.mp hx with hx | hx
    · rw [hx]
      exact dvd_trans (ih _).1 (Nat.gcd_dvd_right a y)
    · exact (ih _).2 x hx

theorem foldGcd_mul : ∀ (ys : List Nat) (g a : Nat),
    (ys.map fun y => g * y).foldl Nat.gcd (g * a) = g * ys.foldl Nat.gcd a := by
  intro ys
  induction ys with
  | nil =>
    intro g a
    rfl
  | cons y ys ih =>
    intro g a
    rw [List.map_cons, List.foldl_cons, List.foldl_cons, Nat.gcd_mul_left, ih]

/-- Dividing a list by its fold-gcd `g > 0` yields fold-gcd `1`. -/
theorem foldGcd_div (xs : List Nat) (g : Nat) (hg : xs.foldl Nat.gcd 0 = g)
    (hpos : 0 < g) : (xs.map fun x => x / g).foldl Nat.gcd 0 = 1 := by
  have hdvd : ∀ x ∈ xs, g ∣ x := by
    intro x hx
    rw [← hg]
    exact (foldGcd_dvd xs 0).2 x hx
  have hmm : xs.map (fun x => g * (x / g)) = xs := by
    conv_rhs => rw [← List.map_id xs]
    apply List.map_congr_left
    intro x hx
    exact Nat.mul_div_cancel' (hdvd x hx)
  have hkey : g * ((xs.map fun x => x / g).foldl Nat.gcd 0) = g * 1 := by
    rw [← foldGcd_mul (xs.map fun x => x / g) g 0, List.map_map]
    show (xs.map fun x => g * (x / g)).foldl Nat.gcd (g * 0) = g * 1
    rw [hmm, Nat.mul_zero, Nat.mul_one, hg]
  exact Nat.eq_of_mul_eq_mul_left hpos hkey

theorem foldl_pair_fst (f : Nat → (Nat × Int) → Nat) (h : Domain → (Nat × Int) → Domain) :
    ∀ (l : List (Nat × Int)) (a : Nat) (d : Domain),
    (l.foldl (fun acc e => (f acc.1 e, h acc.2 e)) (a, d)).1 = l.foldl f a := by
  intro l
  induction l with
  | nil =>
    intro a d
    rfl
  | cons e rest ih =>
    intro a d
    rw [List.foldl_cons, List.foldl_cons]
    exact ih _ _

/-- `mapGcd` as a fold over the absolute coefficients. -/
theorem mapGcd_eq_fold (m : List (Nat × Int)) :
    mapGcd m = (m.map fun p => p.2.natAbs).foldl Nat.gcd 0 := by
  rw [mapGcd, List.foldl_map]

theorem intersectDomainWith_fields (ctx : PresolveContext) (ref : Int)
    (d : Domain) (dm : Option Bool) :
    (ctx.IntersectDomainWith ref d dm).2.1.objective_map = ctx.objective_map ∧
    (ctx.IntersectDomainWith ref d dm).2.1.affine_relations_ = ctx.affine_relations_ ∧
    (ctx.IntersectDomainWith ref d dm).2.1.var_equiv_relations_ = ctx.var_equiv_relations_ ∧
    (ctx.IntersectDomainWith ref d dm).2.1.var_to_constraints_ = ctx.var_to_constraints_ ∧
    (ctx.IntersectDomainWith ref d dm).2.1.keep_all_feasible_solutions =
      ctx.keep_all_feasible_solutions := by
  rw [PresolveContext.IntersectDomainWith]
  dsimp only
  split <;> split <;> (try split) <;> exact ⟨rfl, rfl, rfl, rfl, rfl⟩

theorem updateRuleStats_fields (ctx : PresolveContext) (s : String) :
    (ctx.UpdateRuleStats s).objective_map = ctx.objective_map ∧
    (ctx.UpdateRuleStats s).affine_relations_ = ctx.affine_relations_ ∧
    (ctx.UpdateRuleStats s).var_equiv_relations_ = ctx.var_equiv_relations_ ∧
    (ctx.UpdateRuleStats s).domains = ctx.domains := by
  rw [PresolveContext.UpdateRuleStats]
  dsimp only
  split <;> exact ⟨rfl, rfl, rfl, rfl⟩

set_option maxHeartbeats 1000000 in
/-- Effect of one `canonTail` step on the objective map: the repositories are
untouched, keys stay unique, values stay non-zero, and every surviving entry
is either an untouched old entry (other than `var`, unless `var` is its own
representative) or the entry of `var`'s affine representative. -/
theorem canonTail_spec (A E : AffineRelationRepo) (ctx1 : PresolveContext)
    (off : Int) (var : Nat) (coeff : Int)
    (hA : ctx1.affine_relations_ = A) (hE : ctx1.var_equiv_relations_ = E) :
    (canonTail ctx1 off var coeff).1.affine_relations_ = A ∧
    (canonTail ctx1 off var coeff).1.var_equiv_relations_ = E ∧
    (keysNodup ctx1.objective_map →
      keysNodup (canonTail ctx1 off var coeff).1.objective_map) ∧
    (mapNZ ctx1.objective_map → mapNZ (canonTail ctx1 off var coeff).1.objective_map) ∧
    ∀ p ∈ (canonTail ctx1 off var coeff).1.objective_map,
      (p ∈ ctx1.objective_map ∧ (p.1 ≠ var ∨
        (getAffineRelationOf A E (var : Int)).representative = var)) ∨
      p.1 = (getAffineRelationOf A E (var : Int)).representative := by
  rw [canonTail]
  dsimp only
  split
  next hfx =>
    dsimp only [PresolveContext.vtcErase]
    refine ⟨hA, hE, ?_, ?_, ?_⟩
    · intro h
      exact keysNodup_mapErase _ _ h
    · intro h p hp
      rw [mem_mapErase] at hp
      exact h p hp.1
    · intro p hp
      rw [mem_mapErase] at hp
      exact Or.inl ⟨hp.1, Or.inl hp.2⟩
  next hfx =>
    split
    next hrep =>
      refine ⟨hA, hE, fun h => h, fun h => h, ?_⟩
      intro p hp
      refine Or.inl ⟨hp, Or.inr ?_⟩
      rw [← hA, ← hE]
      exact hrep
    next hrep =>
      dsimp only [PresolveContext.vtcErase, PresolveContext.vtcInsert]
      split
      next hnc =>
        refine ⟨hA, hE, ?_, ?_, ?_⟩
        · intro h
          exact keysNodup_mapErase _ _ (keysNodup_mapSet _ _ _ (keysNodup_mapErase _ _ h))
        · intro h p hp
          rw [mem_mapErase] at hp
          rcases mem_mapSet_weak _ _ _ _ hp.1 with he | he
          · exact absurd (by rw [he]) hp.2
          · rw [mem_mapErase] at he
            exact h p he.1
        · intro p hp
          rw [mem_mapErase] at hp
          rcases mem_mapSet_weak _ _ _ _ hp.1 with he | he
          · exact absurd (by rw [he]) hp.2
          · rw [mem_mapErase] at he
            exact Or.inl ⟨he.1, Or.inl he.2⟩
      next hnc =>
        split
        next hfx2 =>
          refine ⟨hA, hE, ?_, ?_, ?_⟩
          · intro h
            exact keysNodup_mapErase _ _ (keysNodup_mapSet _ _ _ (keysNodup_mapErase _ _ h))
          · intro h p hp
            rw [mem_mapErase] at hp
            rcases mem_mapSet_weak _ _ _ _ hp.1 with he | he
            · exact absurd (by rw [he]) hp.2
            · rw [mem_mapErase] at he
              exact h p he.1
          · intro p hp
            rw [mem_mapErase] at hp
            rcases mem_mapSet_weak _ _ _ _ hp.1 with he | he
            · exact absurd (by rw [he]) hp.2
            · rw [mem_mapErase] at he
              exact Or.inl ⟨he.1, Or.inl he.2⟩
        next hfx2 =>
          refine ⟨hA, hE, ?_, ?_, ?_⟩
          · intro h
            exact keysNodup_mapSet _ _ _ (keysNodup_mapErase _ _ h)
          · intro h p hp
            rcases mem_mapSet_weak _ _ _ _ hp with he | he
            · rw [he]
              simpa using hnc
            · rw [mem_mapErase] at he
              exact h p he.1
          · intro p hp
            rcases mem_mapSet_weak _ _ _ _ hp with he | he
            · right
              rw [he, ← hA, ← hE]
              rfl
            · rw [mem_mapErase] at he
              exact Or.inl ⟨he.1, Or.inl he.2⟩

set_option maxHeartbeats 1000000 in
/-- Invariant of the first `CanonicalizeObjective` loop: along the snapshot,
the affine repositories never change, keys stay unique and values non-zero,
and when the loop finishes every surviving key is the representative of its
own affine equivalence class. -/
theorem canonLoop_inv (A E : AffineRelationRepo) :
    ∀ (entries : List (Nat × Int)) (ctx : PresolveContext) (off : Int),
    ctx.affine_relations_ = A → ctx.var_equiv_relations_ = E →
    keysNodup ctx.objective_map → mapNZ ctx.objective_map →
    (∀ p ∈ ctx.objective_map, p.1 ∈ entries.map Prod.fst ∨
        (getAffineRelationOf A E (p.1 : Int)).representative = p.1) →
    (∀ v : Nat, getAffineRelationOf A E
        (((getAffineRelationOf A E (v : Int)).representative : Nat) : Int) =
        ⟨(getAffineRelationOf A E (v : Int)).representative, 1, 0⟩) →
    (canonLoop ctx off entries).1 = true →
    (canonLoop ctx off entries).2.1.affine_relations_ = A ∧
    (canonLoop ctx off entries).2.1.var_equiv_relations_ = E ∧
    keysNodup (canonLoop ctx off entries).2.1.objective_map ∧
    mapNZ (canonLoop ctx off entries).2.1.objective_map ∧
    ∀ p ∈ (canonLoop ctx off entries).2.1.objective_map,
      (getAffineRelationOf A E (p.1 : Int)).representative = p.1 := by
  intro entries
  induction entries with
  | nil =>
    intro ctx off hA hE hnd hnz hpend _ _
    refine ⟨hA, hE, hnd, hnz, ?_⟩
    intro p hp
    rcases hpend p hp with h | h
    · rw [List.map_nil] at h
      exact absurd h (List.not_mem_nil _)
    · exact h
  | cons t rest ih =>
    intro ctx off hA hE hnd hnz hpend hidem hres
    obtain ⟨var, c0⟩ := t
    cases halook : alookup ctx.objective_map var with
    | none =>
      rw [canonLoop, halook] at hres ⊢
      refine ih _ _ hA hE hnd hnz ?_ hidem hres
      intro p hp
      rcases hpend p hp with hin | hrs
      · rw [List.map_cons] at hin
        rcases List.mem_cons.mp hin with h1 | h1
        · exfalso
          have hsome := alookup_isSome_of_mem ctx.objective_map p hp
          rw [h1, halook] at hsome
          cases hsome
        · exact Or.inl h1
      · exact Or.inr hrs
    | some coeff =>
      have key : ∀ (c : PresolveContext),
          c.affine_relations_ = A → c.var_equiv_relations_ = E →
          c.objective_map = ctx.objective_map →
          (canonLoop (canonTail c off var coeff).1 (canonTail c off var coeff).2 rest).1 = true →
          (canonLoop (canonTail c off var coeff).1 (canonTail c off var coeff).2 rest).2.1.affine_relations_ = A ∧
          (canonLoop (canonTail c off var coeff).1 (canonTail c off var coeff).2 rest).2.1.var_equiv_relations_ = E ∧
          keysNodup (canonLoop (canonTail c off var coeff).1 (canonTail c off var coeff).2 rest).2.1.objective_map ∧
          mapNZ (canonLoop (canonTail c off var coeff).1 (canonTail c off var coeff).2 rest).2.1.objective_map ∧
          ∀ p ∈ (canonLoop (canonTail c off var coeff).1 (canonTail c off var coeff).2 rest).2.1.objective_map,
            (getAffineRelationOf A E (p.1 : Int)).representative = p.1 := by
        intro c hcA hcE hcm hres2
        obtain ⟨hsA, hsE, hsnd, hsnz, hsmem⟩ := canonTail_spec A E c off var coeff hcA hcE
        refine ih _ _ hsA hsE (hsnd (by rw [hcm]; exact hnd)) (hsnz (by rw [hcm]; exact hnz)) ?_ hidem hres2
        intro p hp
        rcases hsmem p hp with ⟨hmem1, hvar⟩ | hrep1
        · have hmem : p ∈ ctx.objective_map := by rw [← hcm]; exact hmem1
          rcases hpend p hmem with hin | hrs
          · rw [List.map_cons] at hin
            rcases List.mem_cons.mp hin with h1 | h1
            · rcases hvar with hne | hrv
              · exact absurd h1 hne
              · right
                rw [h1]
                exact hrv
            · left
              exact h1
          · right
            exact hrs
        · right
          rw [hrep1, hidem var]
      rw [canonLoop, halook] at hres ⊢
      dsimp only at hres ⊢
      by_cases hfree : (!ctx.keep_all_feasible_solutions &&
          !ctx.objective_domain_is_constraining &&
          ctx.ConstraintVariableGraphIsUpToDate &&
          ((ctx.vtcGet var).card == 1) && decide ((-1 : Int) ∈ ctx.vtcGet var)) = true
      · rw [if_pos hfree] at hres ⊢
        by_cases hcoeff : coeff > 0
        · rw [if_pos hcoeff] at hres ⊢
          dsimp only at hres ⊢
          by_cases hr1 : ((ctx.UpdateRuleStats "objective: variable not used elsewhere").IntersectDomainWith
              (var : Int) (Domain.single ((ctx.UpdateRuleStats "objective: variable not used elsewhere").MinOf
                (var : Int))) none).1 = false
          · rw [if_pos hr1] at hres
            simp at hres
          · rw [if_neg hr1] at hres ⊢
            have hif := intersectDomainWith_fields
              (ctx.UpdateRuleStats "objective: variable not used elsewhere") (var : Int)
              (Domain.single ((ctx.UpdateRuleStats "objective: variable not used elsewhere").MinOf
                (var : Int))) none
            have hur := updateRuleStats_fields ctx "objective: variable not used elsewhere"
            exact key _ (hif.2.1.trans (hur.2.1.trans hA)) (hif.2.2.1.trans (hur.2.2.1.trans hE))
              (hif.1.trans hur.1) hres
        · rw [if_neg hcoeff] at hres ⊢
          dsimp only at hres ⊢
          by_cases hr1 : ((ctx.UpdateRuleStats "objective: variable not used elsewhere").IntersectDomainWith
              (var : Int) (Domain.single ((ctx.UpdateRuleStats "objective: variable not used elsewhere").MaxOf
                (var : Int))) none).1 = false
          · rw [if_pos hr1] at hres
            simp at hres
          · rw [if_neg hr1] at hres ⊢
            have hif := intersectDomainWith_fields
              (ctx.UpdateRuleStats "objective: variable not used elsewhere") (var : Int)
              (Domain.single ((ctx.UpdateRuleStats "objective: variable not used elsewhere").MaxOf
                (var : Int))) none
            have hur := updateRuleStats_fields ctx "objective: variable not used elsewhere"
            exact key _ (hif.2.1.trans (hur.2.1.trans hA)) (hif.2.2.1.trans (hur.2.2.1.trans hE))
              (hif.1.trans hur.1) hres
      · rw [if_neg hfree] at hres ⊢
        dsimp only at hres ⊢
        rw [if_neg (show ¬((true : Bool) = false) by decide)] at hres ⊢
        exact key ctx hA hE rfl hres

set_option maxHeartbeats 1600000 in
/-- **C3.**  Whenever `CanonicalizeObjective` returns `true` (on a context
with the maintained objective-map invariants: unique keys, non-zero stored
coefficients, and an idempotent affine union-find), the resulting objective
state satisfies: every variable key in `objective_map` is the representative
of its own affine equivalence class, every stored coefficient is non-zero,
the gcd of the absolute coefficients is `1` when the map is non-empty, and
`objective_domain` is non-empty. -/
theorem c3_canonicalize_objective (ctx : PresolveContext)
    (hidem : repoIdem ctx)
    (hnd : keysNodup ctx.objective_map)
    (hnz : mapNZ ctx.objective_map)
    (hres : ctx.CanonicalizeObjective.1 = true) :
    (∀ p ∈ ctx.CanonicalizeObjective.2.objective_map,
      (ctx.CanonicalizeObjective.2.GetAffineRelation (p.1 : Int)).representative = p.1 ∧
        p.2 ≠ 0) ∧
    (ctx.CanonicalizeObjective.2.objective_map ≠ [] →
      mapGcd ctx.CanonicalizeObjective.2.objective_map = 1) ∧
    ctx.CanonicalizeObjective.2.objective_domain.IsEmpty = false := by
  rw [PresolveContext.CanonicalizeObjective] at hres ⊢
  dsimp only at hres ⊢
  by_cases hr1 : (canonLoop ctx 0 ctx.objective_map).1 = false
  · rw [if_pos hr1] at hres
    simp at hres
  · rw [if_neg hr1] at hres ⊢
    have hcl : (canonLoop ctx 0 ctx.objective_map).1 = true := by
      cases h : (canonLoop ctx 0 ctx.objective_map).1
      · exact absurd h hr1
      · rfl
    have hinv := canonLoop_inv ctx.affine_relations_ ctx.var_equiv_relations_
      ctx.objective_map ctx 0 rfl rfl hnd hnz
      (fun p hp => Or.inl (List.mem_map_of_mem _ hp)) hidem hcl
    set c1 := (canonLoop ctx 0 ctx.objective_map).2.1 with hc1
    set F := (sortLe pairLe c1.objective_map).foldl
      (fun (acc : Nat × Domain) entry =>
        (Nat.gcd acc.1 entry.2.natAbs,
         ((acc.2.AdditionWith
            ((c1.DomainOf (entry.1 : Int)).MultiplicationBy entry.2)).RelaxIfTooComplex)))
      (0, Domain.single 0) with hF
    have hg : F.1 = mapGcd c1.objective_map := by
      rw [hF]
      rw [foldl_pair_fst (fun g e => Nat.gcd g e.2.natAbs)
        (fun d e => ((d.AdditionWith
          ((c1.DomainOf (e.1 : Int)).MultiplicationBy e.2)).RelaxIfTooComplex))]
      rw [mapGcd]
      exact List.Perm.foldl_eq' (sortLe_perm pairLe c1.objective_map)
        (fun x _ y _ z => by rw [Nat.gcd_assoc, Nat.gcd_assoc, Nat.gcd_comm x.2.natAbs]) 0
    by_cases hgcd : F.1 > 1
    · rw [if_pos hgcd] at hres ⊢
      split at hres
      next h => simp at hres
      next hemp =>
        rw [if_neg hemp]
        dsimp only
        refine ⟨?_, ?_, ?_⟩
        · intro p hp
          rcases List.mem_map.mp hp with ⟨q, hq, hpe⟩
          subst hpe
          have hgdvd : F.1 ∣ q.2.natAbs := by
            rw [hg, mapGcd_eq_fold]
            exact (foldGcd_dvd _ 0).2 _ (List.mem_map_of_mem _ hq)
          have hq2 : q.2 ≠ 0 := hinv.2.2.2.1 q hq
          constructor
          · rw [PresolveContext.GetAffineRelation]
            dsimp only
            rw [hinv.1, hinv.2.1]
            exact hinv.2.2.2.2 q hq
          · dsimp only
            intro hc
            have hz : (q.2.tdiv (F.1 : Int)).natAbs = 0 := by
              rw [hc]
              rfl
            rw [Int.natAbs_tdiv, Int.natAbs_ofNat] at hz
            have hz2 : q.2.natAbs / F.1 = 0 := hz
            have hqpos : 0 < q.2.natAbs := Int.natAbs_pos.mpr hq2
            have hle : F.1 ≤ q.2.natAbs := Nat.le_of_dvd hqpos hgdvd
            have hdpos : 0 < q.2.natAbs / F.1 := Nat.div_pos hle (by omega)
            omega
        · intro _
          rw [mapGcd_eq_fold, List.map_map]
          have hfn : ((fun p : Nat × Int => p.2.natAbs) ∘
              fun p : Nat × Int => (p.1, p.2.tdiv (F.1 : Int))) =
              fun p : Nat × Int => p.2.natAbs / F.1 := by
            funext p
            show (p.2.tdiv (F.1 : Int)).natAbs = p.2.natAbs / F.1
            rw [Int.natAbs_tdiv, Int.natAbs_ofNat]
            rfl
          rw [hfn]
          rw [show (c1.objective_map.map fun p => p.2.natAbs / F.1) =
              ((c1.objective_map.map fun p => p.2.natAbs).map fun x => x / F.1) by
            rw [List.map_map]
            rfl]
          exact foldGcd_div (c1.objective_map.map fun p => p.2.natAbs) F.1
            (by rw [← mapGcd_eq_fold, ← hg]) (by omega)
        · simp only [Bool.not_eq_true] at hemp
          exact hemp
    · rw [if_neg hgcd] at hres ⊢
      split at hres
      next h => simp at hres
      next hemp =>
        rw [if_neg hemp]
        dsimp only
        refine ⟨?_, ?_, ?_⟩
        · intro p hp
          refine ⟨?_, hinv.2.2.2.1 p hp⟩
          rw [PresolveContext.GetAffineRelation]
          dsimp only
          rw [hinv.1, hinv.2.1]
          exact hinv.2.2.2.2 p hp
        · intro hne
          obtain ⟨p0, hp0⟩ : ∃ p, p ∈ c1.objective_map := by
            cases hm : c1.objective_map with
            | nil => exact absurd hm hne
            | cons a l =>
              exact ⟨a, List.mem_cons_self _ _⟩
          have h0 : F.1 ≠ 0 := by
            intro hz
            have hdv : mapGcd c1.objective_map ∣ p0.2.natAbs := by
              rw [mapGcd_eq_fold]
              exact (foldGcd_dvd _ 0).2 _ (List.mem_map_of_mem _ hp0)
            rw [← hg, hz] at hdv
            exact (hinv.2.2.2.1 p0 hp0) (Int.natAbs_eq_zero.mp (Nat.eq_zero_of_zero_dvd hdv))
          have h1 : F.1 = 1 := by omega
          rw [← hg]
          exact h1
        · simp only [Bool.not_eq_true] at hemp
          exact hemp

/-- On empty repositories every reference is its own (identity)
representative. -/
theorem getAffineRelationOf_trivial (v : Nat) :
    getAffineRelationOf ⟨[], []⟩ ⟨[], []⟩ (v : Int) = ⟨v, 1, 0⟩ := by
  rw [getAffineRelationOf]
  dsimp only
  rw [refVar_natCast]
  simp [AffineRelationRepo.Get, alookup, refIsPositive_natCast]

/-- Witness for C3 on the concrete objective `3·x₀ + 6·x₁`: the
canonicalized map has coefficient gcd `1`, the objective domain stays
non-empty, and the surviving entry of `x₀` is its own representative with a
non-zero coefficient. -/
theorem c3_canonicalize_objective_witness :
    mapGcd canonScenario.CanonicalizeObjective.2.objective_map = 1 ∧
    canonScenario.CanonicalizeObjective.2.objective_domain.IsEmpty = false ∧
    ((canonScenario.CanonicalizeObjective.2.GetAffineRelation
        (((0 : Nat) : Int))).representative = (0 : Nat) ∧ ((0 : Nat), (1 : Int)).2 ≠ 0) := by
  have hidem : repoIdem canonScenario := by
    intro v
    have h1 : canonScenario.GetAffineRelation (v : Int) = ⟨v, 1, 0⟩ :=
      getAffineRelationOf_trivial v
    rw [h1]
    dsimp only
    exact getAffineRelationOf_trivial v
  refine ⟨(c3_canonicalize_objective canonScenario hidem (by decide) (by decide)
      (by decide)).2.1 (by decide),
    (c3_canonicalize_objective canonScenario hidem (by decide) (by decide)
      (by decide)).2.2,
    (c3_canonicalize_objective canonScenario hidem (by decide) (by decide)
      (by decide)).1 ((0 : Nat), (1 : Int)) (by decide)⟩
